import Mathlib

/-!
# Verification of the LSB video-steganography core

A shallow embedding, in Lean 4, of the core services of the
Video-Steganography-using-LSB web application:

* `SteganographyService` (`app/services/steganography_service.py`):
  byte↔bit conversion, length-prefix framing, Reed-Solomon protection,
  LSB embedding/extraction over frames.
* `CryptoService` (`app/services/crypto_service.py`): PBKDF2 key
  derivation plus AES in CBC/CTR/GCM/CFB modes with mode-specific
  envelope layouts.
* `AIService` (`app/services/ai_service.py`): RS-analysis steganalysis
  subscore and best-frame selection.

Python byte strings are modelled as `List Nat` with entries below 256;
numpy frames are modelled by their shape plus row-major flattened sample
list.  External primitives (the AES block cipher of PyCryptodome, the
`reedsolo` codec, OpenCV colour conversion) are parameters of the model,
constrained only by the properties the surrounding repository code relies
on; everything written in the repository itself is translated directly.
-/

set_option maxRecDepth 4096

namespace VideoStego

/-! ## BitstreamCodec: `data_to_bits` / `bits_to_bytes`

Source: `SteganographyService.data_to_bits` and
`SteganographyService.bits_to_bytes`. -/

/-- The eight bits of one byte, most-significant first: the inner loop
`for i in range(7, -1, -1): yield (byte >> i) & 1` of `data_to_bits`. -/
def byteToBits (b : Nat) : List Nat :=
  (List.range 8).map (fun i => (b >>> (7 - i)) &&& 1)

/-- `SteganographyService.data_to_bits`: bytes to bits, MSB-first per byte
(the generator is always materialised with `list(...)` by its callers). -/
def data_to_bits (data : List Nat) : List Nat :=
  data.flatMap byteToBits

/-- Zero bits appended by the `while len(bits) % 8 != 0: bits.append(0)`
padding loop at the head of `bits_to_bytes`. -/
def padToByte (bits : List Nat) : List Nat :=
  bits ++ List.replicate ((8 - bits.length % 8) % 8) 0

/-- The `byte = (byte << 1) | bits[i + j]` fold of `bits_to_bytes`. -/
def bitsToByte (bits : List Nat) : Nat :=
  bits.foldl (fun acc b => (acc <<< 1) ||| b) 0

/-- Byte-assembly loop of `bits_to_bytes` over an already padded bit list:
each straight run of 8 bits becomes one byte. -/
def bytesOfPaddedBits : List Nat → List Nat
  | b0 :: b1 :: b2 :: b3 :: b4 :: b5 :: b6 :: b7 :: rest =>
      bitsToByte [b0, b1, b2, b3, b4, b5, b6, b7] :: bytesOfPaddedBits rest
  | _ => []

/-- `SteganographyService.bits_to_bytes`: pad to a byte boundary with
zeros, then assemble bytes MSB-first. -/
def bits_to_bytes (bits : List Nat) : List Nat :=
  bytesOfPaddedBits (padToByte bits)

@[simp] theorem byteToBits_length (b : Nat) : (byteToBits b).length = 8 := by
  simp [byteToBits]

theorem data_to_bits_append (a b : List Nat) :
    data_to_bits (a ++ b) = data_to_bits a ++ data_to_bits b := by
  simp [data_to_bits]

@[simp] theorem data_to_bits_nil : data_to_bits [] = [] := rfl

@[simp] theorem data_to_bits_cons (b : Nat) (rest : List Nat) :
    data_to_bits (b :: rest) = byteToBits b ++ data_to_bits rest := by
  simp [data_to_bits]

@[simp] theorem data_to_bits_length (data : List Nat) :
    (data_to_bits data).length = data.length * 8 := by
  induction data with
  | nil => simp
  | cons b rest ih => simp [ih]; ring

theorem byteToBits_explicit (b : Nat) :
    byteToBits b =
      [(b >>> 7) &&& 1, (b >>> 6) &&& 1, (b >>> 5) &&& 1, (b >>> 4) &&& 1,
       (b >>> 3) &&& 1, (b >>> 2) &&& 1, (b >>> 1) &&& 1, b &&& 1] := by
  simp [byteToBits, List.range_succ]

theorem shiftRight_and_one (b i : Nat) : (b >>> i) &&& 1 = b / 2 ^ i % 2 := by
  simp [Nat.shiftRight_eq_div_pow, Nat.and_one_is_mod]

/-- Reassembling the eight MSB-first bits of a byte `b < 256` gives `b` back. -/
theorem bitsToByte_byteToBits (b : Nat) (hb : b < 256) :
    bitsToByte (byteToBits b) = b := by
  have h : ∀ x : Fin 256, bitsToByte (byteToBits x.val) = x.val := by decide
  exact h ⟨b, hb⟩

theorem bytesOfPaddedBits_append8 (b0 b1 b2 b3 b4 b5 b6 b7 : Nat)
    (rest : List Nat) :
    bytesOfPaddedBits (b0 :: b1 :: b2 :: b3 :: b4 :: b5 :: b6 :: b7 :: rest) =
      bitsToByte [b0, b1, b2, b3, b4, b5, b6, b7] :: bytesOfPaddedBits rest := rfl

/-- A bit stream produced from whole bytes needs no padding. -/
theorem padToByte_of_mul8 (bits : List Nat) (h : bits.length % 8 = 0) :
    padToByte bits = bits := by
  simp [padToByte, h]

theorem bytesOfPaddedBits_data_to_bits (data : List Nat)
    (hdata : ∀ b ∈ data, b < 256) :
    bytesOfPaddedBits (data_to_bits data) = data := by
  induction data with
  | nil => rfl
  | cons b rest ih =>
      have hb : b < 256 := hdata b (List.mem_cons_self b rest)
      have hrest : ∀ x ∈ rest, x < 256 := fun x hx => hdata x (List.mem_cons_of_mem b hx)
      rw [data_to_bits_cons, byteToBits_explicit]
      simp only [List.cons_append, List.nil_append]
      rw [bytesOfPaddedBits_append8, ih hrest, ← byteToBits_explicit,
        bitsToByte_byteToBits b hb]

/-- Byte-level round trip, shared by the framing proofs: a bit stream
coming from genuine bytes reassembles to exactly those bytes. -/
theorem bytes_bits_roundtrip (data : List Nat) (hdata : ∀ b ∈ data, b < 256) :
    bits_to_bytes (data_to_bits data) = data := by
  have hlen : (data_to_bits data).length % 8 = 0 := by
    simp [data_to_bits_length, Nat.mul_mod_left]
  rw [bits_to_bytes, padToByte_of_mul8 _ hlen,
    bytesOfPaddedBits_data_to_bits data hdata]

/-- **C3.** For every byte string `b` (all entries genuine bytes, i.e.
below 256), converting to bits MSB-first per byte with `data_to_bits` and
reassembling with `bits_to_bytes` yields exactly `b`; non-emptiness as in
the claim is included (the property holds vacuously-stronger without it). -/
theorem bits_to_bytes_data_to_bits (data : List Nat)
    (_hne : data ≠ []) (hdata : ∀ b ∈ data, b < 256) :
    bits_to_bytes (data_to_bits data) = data :=
  bytes_bits_roundtrip data hdata

/-- Witness for C3 at the concrete byte string `[0xAB, 0x00, 0xFF]`. -/
theorem bits_to_bytes_data_to_bits_witness :
    bits_to_bytes (data_to_bits [171, 0, 255]) = [171, 0, 255] :=
  bits_to_bytes_data_to_bits [171, 0, 255] (by decide) (by decide)

/-! ## CryptoService

Source: `app/services/crypto_service.py`.  Plaintexts and passwords are
modelled by their UTF-8 byte sequences.  The AES block primitive, the
CTR/GCM keystreams, the GCM authentication tag and PBKDF2 key derivation
all live in external libraries (PyCryptodome, `cryptography`), so they are
parameters of the model (`AesPrimitives`); the mode dispatch, envelope
byte layouts, padding and field slicing — the code this repository owns —
are translated directly. -/

/-- Supported cipher modes (`CryptoService.CIPHER_MODES`). -/
inductive CipherMode | CBC | CTR | GCM | CFB
deriving DecidableEq, Repr

/-- Supported key sizes (`CryptoService.KEY_SIZES`). -/
inductive KeySize | aes128 | aes192 | aes256
deriving DecidableEq, Repr

/-- Derived key length in bytes (`KEY_SIZES` values 16/24/32). -/
def KeySize.bytes : KeySize → Nat
  | .aes128 => 16
  | .aes192 => 24
  | .aes256 => 32

/-- External cryptographic primitives used by `CryptoService`, as opaque
parameters: the AES block cipher pair, the CTR and GCM byte keystreams
(functions of key, nonce and byte index), the GCM tag and PBKDF2. -/
structure AesPrimitives where
  encryptBlock : List Nat → List Nat → List Nat
  decryptBlock : List Nat → List Nat → List Nat
  ctrKeystream : List Nat → List Nat → Nat → Nat
  gcmKeystream : List Nat → List Nat → Nat → Nat
  gcmTag : List Nat → List Nat → List Nat → List Nat
  deriveKey : List Nat → List Nat → Nat → List Nat

/-- The facts about the external primitives that AES guarantees and the
round-trip proofs rely on: block decryption inverts block encryption,
blocks stay 16 bytes long, and GCM tags are 16 bytes long. -/
structure AesPrimitives.Inverses (P : AesPrimitives) : Prop where
  decrypt_encrypt : ∀ key b, P.decryptBlock key (P.encryptBlock key b) = b
  encrypt_len : ∀ key b, b.length = 16 → (P.encryptBlock key b).length = 16
  tag_len : ∀ key nonce ct, (P.gcmTag key nonce ct).length = 16

/-- Error taxonomy of the crypto layer, following the spec's names.
`CryptoService.encrypt` raises `ValueError` on empty plaintext
(`invalidParameter`); PyCryptodome raises on CBC unpad failure
(`paddingError`) and GCM tag mismatch (`authenticationError`).
`truncatedInput` is the spec's truncated-envelope error, included so that
its absence from every code path can be stated. -/
inductive CryptoError
  | invalidParameter | paddingError | authenticationError | truncatedInput
deriving DecidableEq, Repr

/-- Pointwise XOR of two byte lists (PyCryptodome stream-mode XOR). -/
def zipXor (a b : List Nat) : List Nat := List.zipWith (fun x y => x ^^^ y) a b

/-- PKCS#7 padding to the 16-byte AES block (`Crypto.Util.Padding.pad`):
append `16 - len % 16` copies of that very value. -/
def pad16 (m : List Nat) : List Nat :=
  let p := 16 - m.length % 16
  m ++ List.replicate p p

/-- PKCS#7 unpadding (`Crypto.Util.Padding.unpad`): the data must be a
non-empty multiple of 16, the final byte names the padding length, and
all padding bytes must match it. -/
def unpad16 (m : List Nat) : Except CryptoError (List Nat) :=
  if m.length = 0 ∨ m.length % 16 ≠ 0 then .error .paddingError
  else if m.getLastD 0 = 0 ∨ 16 < m.getLastD 0 ∨ m.length < m.getLastD 0 then
    .error .paddingError
  else if m.drop (m.length - m.getLastD 0) ≠ List.replicate (m.getLastD 0) (m.getLastD 0) then
    .error .paddingError
  else .ok (m.take (m.length - m.getLastD 0))

/-- Split a byte list into consecutive 16-byte blocks (the block
traversal PyCryptodome performs in CBC mode); a final short block is kept
as-is. -/
def chunk16 (l : List Nat) : List (List Nat) :=
  if h : l = [] then []
  else l.take 16 :: chunk16 (l.drop 16)
termination_by l.length
decreasing_by
  simp only [List.length_drop]
  have : 0 < l.length := List.length_pos.mpr h
  omega

/-- CBC encryption over 16-byte blocks: each block is XORed with the
previous ciphertext block (initially the IV) and block-encrypted. -/
def cbcEncChunks (P : AesPrimitives) (key : List Nat) :
    List Nat → List (List Nat) → List (List Nat)
  | _, [] => []
  | prev, b :: bs =>
      let c := P.encryptBlock key (zipXor prev b)
      c :: cbcEncChunks P key c bs

/-- CBC decryption over 16-byte blocks. -/
def cbcDecChunks (P : AesPrimitives) (key : List Nat) :
    List Nat → List (List Nat) → List (List Nat)
  | _, [] => []
  | prev, c :: cs =>
      zipXor prev (P.decryptBlock key c) :: cbcDecChunks P key c cs

/-- CFB mode with PyCryptodome's default 8-bit segments: each byte is
XORed with the first byte of the block-encrypted shift register, and the
ciphertext byte is shifted into the register. -/
def cfbEncBytes (P : AesPrimitives) (key : List Nat) :
    List Nat → List Nat → List Nat
  | _, [] => []
  | sr, p :: ps =>
      let o := (P.encryptBlock key sr).headD 0
      let c := p ^^^ o
      c :: cfbEncBytes P key (sr.drop 1 ++ [c]) ps

/-- CFB decryption: identical register schedule, driven by the ciphertext. -/
def cfbDecBytes (P : AesPrimitives) (key : List Nat) :
    List Nat → List Nat → List Nat
  | _, [] => []
  | sr, c :: cs =>
      let o := (P.encryptBlock key sr).headD 0
      (c ^^^ o) :: cfbDecBytes P key (sr.drop 1 ++ [c]) cs

/-- Byte-indexed keystream XOR shared by the CTR and GCM data paths. -/
def streamXor (ks : Nat → Nat) : Nat → List Nat → List Nat
  | _, [] => []
  | i, b :: bs => (b ^^^ ks i) :: streamXor ks (i + 1) bs

/-- `CryptoService.encrypt`.  The fresh random `salt` (16 bytes) and
`iv`/nonce (16 bytes, or 8 for CTR) drawn from `secrets.token_bytes` are
explicit arguments.  Produces the mode-specific envelope:
GCM `salt+nonce+tag+ciphertext`, CTR `salt+nonce+ciphertext`,
CBC/CFB `salt+iv+ciphertext`, with PKCS padding only in CBC. -/
def CryptoService.encrypt (P : AesPrimitives) (plaintext password : List Nat)
    (strength : KeySize) (mode : CipherMode) (salt iv : List Nat) :
    Except CryptoError (List Nat) :=
  if plaintext = [] then .error .invalidParameter
  else
    match mode with
    | .GCM =>
        .ok (salt ++ iv ++
          P.gcmTag (P.deriveKey password salt strength.bytes) iv
            (streamXor (P.gcmKeystream (P.deriveKey password salt strength.bytes) iv)
              0 plaintext) ++
          streamXor (P.gcmKeystream (P.deriveKey password salt strength.bytes) iv)
            0 plaintext)
    | .CTR =>
        .ok (salt ++ iv ++
          streamXor (P.ctrKeystream (P.deriveKey password salt strength.bytes) iv)
            0 plaintext)
    | .CBC =>
        .ok (salt ++ iv ++
          (cbcEncChunks P (P.deriveKey password salt strength.bytes) iv
            (chunk16 (pad16 plaintext))).flatten)
    | .CFB =>
        .ok (salt ++ iv ++
          cfbEncBytes P (P.deriveKey password salt strength.bytes) iv plaintext)

/-- `encrypted_data[:16]` — the salt field every mode of `decrypt` reads. -/
def envSalt (env : List Nat) : List Nat := env.take 16

/-- `encrypted_data[16:32]` — GCM nonce field. -/
def gcmNonceField (env : List Nat) : List Nat := (env.drop 16).take 16

/-- `encrypted_data[32:48]` — GCM tag field. -/
def gcmTagField (env : List Nat) : List Nat := (env.drop 32).take 16

/-- `encrypted_data[48:]` — GCM ciphertext field. -/
def gcmCiphertextField (env : List Nat) : List Nat := env.drop 48

/-- `encrypted_data[16:24]` — CTR nonce field. -/
def ctrNonceField (env : List Nat) : List Nat := (env.drop 16).take 8

/-- `encrypted_data[24:]` — CTR ciphertext field. -/
def ctrCiphertextField (env : List Nat) : List Nat := env.drop 24

/-- `encrypted_data[16:32]` — CBC/CFB IV field. -/
def ivField (env : List Nat) : List Nat := (env.drop 16).take 16

/-- `encrypted_data[32:]` — CBC/CFB ciphertext field. -/
def cbcCiphertextField (env : List Nat) : List Nat := env.drop 32

/-- `CryptoService.decrypt`: slice the mode-specific fields from the
envelope (unconditionally — the source performs no length validation),
re-derive the key from the salt field, and run the mode's inverse
transform.  GCM compares the recomputed tag against the tag field
(`decrypt_and_verify`); CBC unpads after decryption. -/
def CryptoService.decrypt (P : AesPrimitives) (env password : List Nat)
    (strength : KeySize) (mode : CipherMode) :
    Except CryptoError (List Nat) :=
  let salt := envSalt env
  let key := P.deriveKey password salt strength.bytes
  match mode with
  | .GCM =>
      let nonce := gcmNonceField env
      let tag := gcmTagField env
      let ct := gcmCiphertextField env
      let pt := streamXor (P.gcmKeystream key nonce) 0 ct
      if P.gcmTag key nonce ct = tag then .ok pt
      else .error .authenticationError
  | .CTR =>
      .ok (streamXor (P.ctrKeystream key (ctrNonceField env)) 0 (ctrCiphertextField env))
  | .CBC =>
      let iv := ivField env
      unpad16 ((cbcDecChunks P key iv (chunk16 (cbcCiphertextField env))).flatten)
  | .CFB =>
      .ok (cfbDecBytes P key (ivField env) (cbcCiphertextField env))

/-! ### Crypto layer lemmas -/

theorem take_len_append (a b : List Nat) (n : Nat) (h : a.length = n) :
    (a ++ b).take n = a := by
  subst h; simp

theorem drop_len_append (a b : List Nat) (n : Nat) (h : a.length = n) :
    (a ++ b).drop n = b := by
  subst h; simp

theorem zipXor_zipXor : ∀ (a b : List Nat), b.length ≤ a.length →
    zipXor a (zipXor a b) = b
  | _, [], _ => by simp [zipXor]
  | [], _ :: _, h => by simp at h
  | x :: xs, y :: ys, h => by
      simp only [zipXor, List.zipWith_cons_cons]
      rw [Nat.xor_cancel_left]
      have : ys.length ≤ xs.length := by simpa using h
      exact congrArg (y :: ·) (zipXor_zipXor xs ys this)

@[simp] theorem zipXor_length (a b : List Nat) :
    (zipXor a b).length = min a.length b.length := by
  simp [zipXor]

theorem streamXor_streamXor (ks : Nat → Nat) :
    ∀ (bs : List Nat) (i : Nat), streamXor ks i (streamXor ks i bs) = bs
  | [], _ => rfl
  | b :: bs, i => by
      simp only [streamXor]
      rw [Nat.xor_cancel_right]
      exact congrArg (b :: ·) (streamXor_streamXor ks bs (i + 1))

@[simp] theorem streamXor_length (ks : Nat → Nat) :
    ∀ (i : Nat) (bs : List Nat), (streamXor ks i bs).length = bs.length
  | _, [] => rfl
  | i, _ :: bs => by simp [streamXor, streamXor_length ks (i + 1) bs]

theorem cfbDecBytes_cfbEncBytes (P : AesPrimitives) (key : List Nat) :
    ∀ (ps sr : List Nat), cfbDecBytes P key sr (cfbEncBytes P key sr ps) = ps
  | [], _ => rfl
  | p :: ps, sr => by
      simp only [cfbEncBytes, cfbDecBytes]
      rw [Nat.xor_cancel_right]
      exact congrArg (p :: ·) (cfbDecBytes_cfbEncBytes P key ps _)

@[simp] theorem cfbEncBytes_length (P : AesPrimitives) (key : List Nat) :
    ∀ (sr ps : List Nat), (cfbEncBytes P key sr ps).length = ps.length
  | _, [] => rfl
  | sr, p :: ps => by simp [cfbEncBytes, cfbEncBytes_length P key]

theorem chunk16_flatten (l : List Nat) : (chunk16 l).flatten = l := by
  induction l using chunk16.induct with
  | case1 => simp [chunk16]
  | case2 l h ih =>
      rw [chunk16]
      simp [h, ih]

theorem chunk16_mem_length (l : List Nat) (hl : l.length % 16 = 0) :
    ∀ c ∈ chunk16 l, c.length = 16 := by
  induction l using chunk16.induct with
  | case1 => simp [chunk16]
  | case2 l h ih =>
      have hpos : 0 < l.length := List.length_pos.mpr h
      have h16 : 16 ≤ l.length := by omega
      rw [chunk16]; simp only [h, dif_neg, not_false_iff]
      intro c hc
      rcases List.mem_cons.mp hc with rfl | hc
      · simp [List.length_take]; omega
      · exact ih (by simp [List.length_drop]; omega) c hc

theorem chunk16_of_flatten : ∀ (cs : List (List Nat)),
    (∀ c ∈ cs, c.length = 16) → chunk16 cs.flatten = cs
  | [], _ => by simp [chunk16]
  | c :: cs, h => by
      have hc : c.length = 16 := h c (List.mem_cons_self c cs)
      have hcne : c ++ cs.flatten ≠ [] := by
        simp only [ne_eq, List.append_eq_nil, not_and]
        intro hcn
        rw [hcn] at hc; simp at hc
      rw [List.flatten_cons, chunk16]
      simp only [hcne, dif_neg, not_false_iff]
      rw [take_len_append _ _ _ hc, drop_len_append _ _ _ hc,
        chunk16_of_flatten cs (fun x hx => h x (List.mem_cons_of_mem c hx))]

theorem cbcEncChunks_mem_length (P : AesPrimitives) (hP : P.Inverses)
    (key : List Nat) :
    ∀ (bs : List (List Nat)) (prev : List Nat), prev.length = 16 →
      (∀ b ∈ bs, b.length = 16) →
      ∀ c ∈ cbcEncChunks P key prev bs, c.length = 16
  | [], _, _, _ => by simp [cbcEncChunks]
  | b :: bs, prev, hprev, hbs => by
      intro c hc
      have hb : b.length = 16 := hbs b (List.mem_cons_self b bs)
      have hxlen : (zipXor prev b).length = 16 := by simp [hprev, hb]
      have hclen : (P.encryptBlock key (zipXor prev b)).length = 16 :=
        hP.encrypt_len key _ hxlen
      simp only [cbcEncChunks] at hc
      rcases List.mem_cons.mp hc with rfl | hc
      · exact hclen
      · exact cbcEncChunks_mem_length P hP key bs _ hclen
          (fun x hx => hbs x (List.mem_cons_of_mem b hx)) c hc

theorem cbcDecChunks_cbcEncChunks (P : AesPrimitives) (hP : P.Inverses)
    (key : List Nat) :
    ∀ (bs : List (List Nat)) (prev : List Nat), prev.length = 16 →
      (∀ b ∈ bs, b.length = 16) →
      cbcDecChunks P key prev (cbcEncChunks P key prev bs) = bs
  | [], _, _, _ => rfl
  | b :: bs, prev, hprev, hbs => by
      have hb : b.length = 16 := hbs b (List.mem_cons_self b bs)
      have hxlen : (zipXor prev b).length = 16 := by simp [hprev, hb]
      have hclen : (P.encryptBlock key (zipXor prev b)).length = 16 :=
        hP.encrypt_len key _ hxlen
      simp only [cbcEncChunks, cbcDecChunks]
      rw [hP.decrypt_encrypt key (zipXor prev b),
        zipXor_zipXor prev b (by omega),
        cbcDecChunks_cbcEncChunks P hP key bs _ hclen
          (fun x hx => hbs x (List.mem_cons_of_mem b hx))]

theorem flatten_length_of_mem16 : ∀ (cs : List (List Nat)),
    (∀ c ∈ cs, c.length = 16) → cs.flatten.length = 16 * cs.length
  | [], _ => rfl
  | c :: cs, h => by
      have hc : c.length = 16 := h c (List.mem_cons_self c cs)
      simp only [List.flatten_cons, List.length_append, List.length_cons, hc,
        flatten_length_of_mem16 cs (fun x hx => h x (List.mem_cons_of_mem c hx))]
      ring

@[simp] theorem pad16_length (m : List Nat) :
    (pad16 m).length = m.length + (16 - m.length % 16) := by
  simp [pad16]

theorem pad16_length_mod (m : List Nat) : (pad16 m).length % 16 = 0 := by
  rw [pad16_length]; omega

theorem unpad16_pad16 (m : List Nat) : unpad16 (pad16 m) = .ok m := by
  have hp1 : 1 ≤ 16 - m.length % 16 := by omega
  have hp16 : 16 - m.length % 16 ≤ 16 := by omega
  set p := 16 - m.length % 16 with hpdef
  have hlen : (pad16 m).length = m.length + p := pad16_length m
  have hmod : (pad16 m).length % 16 = 0 := pad16_length_mod m
  have hne : (pad16 m).length ≠ 0 := by omega
  have hlast : (pad16 m).getLastD 0 = p := by
    rcases Nat.exists_eq_add_of_le hp1 with ⟨k, hk⟩
    have hrep : List.replicate p p = List.replicate k p ++ [p] := by
      rw [hk, Nat.add_comm, List.replicate_succ']
    rw [pad16, ← hpdef, hrep, ← List.append_assoc, List.getLastD_eq_getLast?,
      List.getLast?_concat]
    rfl
  have hdrop : (pad16 m).drop ((pad16 m).length - p) = List.replicate p p := by
    rw [hlen, Nat.add_sub_cancel, pad16, ← hpdef]
    exact drop_len_append _ _ _ rfl
  have htake : (pad16 m).take ((pad16 m).length - p) = m := by
    rw [hlen, Nat.add_sub_cancel, pad16, ← hpdef]
    exact take_len_append _ _ _ rfl
  rw [unpad16, if_neg (by push_neg; exact ⟨hne, hmod⟩), hlast,
    if_neg (by push_neg; omega), hdrop, if_neg (by simp), htake]

/-- `unpad16` never produces the truncated-input error: its only failure
mode is `paddingError`. -/
theorem unpad16_ne_truncated (l : List Nat) :
    unpad16 l ≠ .error .truncatedInput := by
  rw [unpad16]
  split
  · simp
  · split
    · simp
    · split <;> simp

/-- IV/nonce length drawn by `encrypt`: `secrets.token_bytes(16)` for
CBC/CFB/GCM and `secrets.token_bytes(8)` for CTR. -/
def ivLen : CipherMode → Nat
  | .CTR => 8
  | _ => 16

theorem drop_len2_append (a b c : List Nat) (n : Nat)
    (h : a.length + b.length = n) : (a ++ (b ++ c)).drop n = c := by
  rw [← List.append_assoc]
  exact drop_len_append _ _ _ (by simp [h])

theorem drop_len3_append (a b c d : List Nat) (n : Nat)
    (h : a.length + b.length + c.length = n) : (a ++ (b ++ (c ++ d))).drop n = d := by
  rw [← List.append_assoc, ← List.append_assoc]
  exact drop_len_append _ _ _ (by simp; omega)

/-- Field slicing of a GCM envelope `salt+nonce(16)+tag(16)+ciphertext`:
the readers used by `decrypt` recover exactly the components `encrypt`
concatenated. -/
theorem gcm_fields (salt iv tag ct : List Nat)
    (hsalt : salt.length = 16) (hiv : iv.length = 16) (htag : tag.length = 16) :
    envSalt (salt ++ iv ++ tag ++ ct) = salt ∧
    gcmNonceField (salt ++ iv ++ tag ++ ct) = iv ∧
    gcmTagField (salt ++ iv ++ tag ++ ct) = tag ∧
    gcmCiphertextField (salt ++ iv ++ tag ++ ct) = ct := by
  refine ⟨?_, ?_, ?_, ?_⟩
  · rw [envSalt]
    simp only [List.append_assoc]
    exact take_len_append _ _ _ hsalt
  · rw [gcmNonceField]
    simp only [List.append_assoc]
    rw [drop_len_append _ _ _ hsalt, take_len_append _ _ _ hiv]
  · rw [gcmTagField]
    simp only [List.append_assoc]
    rw [drop_len2_append _ _ _ _ (by omega), take_len_append _ _ _ htag]
  · rw [gcmCiphertextField]
    simp only [List.append_assoc]
    exact drop_len3_append _ _ _ _ _ (by omega)

/-- Field slicing of a CTR envelope `salt+nonce(8)+ciphertext`. -/
theorem ctr_fields (salt iv ct : List Nat)
    (hsalt : salt.length = 16) (hiv : iv.length = 8) :
    envSalt (salt ++ iv ++ ct) = salt ∧
    ctrNonceField (salt ++ iv ++ ct) = iv ∧
    ctrCiphertextField (salt ++ iv ++ ct) = ct := by
  refine ⟨?_, ?_, ?_⟩
  · rw [envSalt]
    simp only [List.append_assoc]
    exact take_len_append _ _ _ hsalt
  · rw [ctrNonceField]
    simp only [List.append_assoc]
    rw [drop_len_append _ _ _ hsalt, take_len_append _ _ _ hiv]
  · rw [ctrCiphertextField]
    simp only [List.append_assoc]
    exact drop_len2_append _ _ _ _ (by omega)

/-- Field slicing of a CBC/CFB envelope `salt+iv(16)+ciphertext`. -/
theorem iv16_fields (salt iv ct : List Nat)
    (hsalt : salt.length = 16) (hiv : iv.length = 16) :
    envSalt (salt ++ iv ++ ct) = salt ∧
    ivField (salt ++ iv ++ ct) = iv ∧
    cbcCiphertextField (salt ++ iv ++ ct) = ct := by
  refine ⟨?_, ?_, ?_⟩
  · rw [envSalt]
    simp only [List.append_assoc]
    exact take_len_append _ _ _ hsalt
  · rw [ivField]
    simp only [List.append_assoc]
    rw [drop_len_append _ _ _ hsalt, take_len_append _ _ _ hiv]
  · rw [cbcCiphertextField]
    simp only [List.append_assoc]
    exact drop_len2_append _ _ _ _ (by omega)

/-- **C2.** For every non-empty plaintext, every password, every key size
and every supported cipher mode, decrypting the envelope produced by
`encrypt` with the same password, key size and mode returns the original
plaintext.  The AES primitives are abstract, constrained only by the
block-inverse and length facts (`AesPrimitives.Inverses`); the randomly
drawn salt and IV are arbitrary lists of the lengths the source draws. -/
theorem decrypt_encrypt_roundtrip (P : AesPrimitives) (hP : P.Inverses)
    (m password salt iv : List Nat) (strength : KeySize) (mode : CipherMode)
    (hm : m ≠ []) (hsalt : salt.length = 16) (hiv : iv.length = ivLen mode) :
    ∃ env, CryptoService.encrypt P m password strength mode salt iv = .ok env ∧
      CryptoService.decrypt P env password strength mode = .ok m := by
  cases mode with
  | GCM =>
      have hiv16 : iv.length = 16 := hiv
      refine ⟨_, by rw [CryptoService.encrypt, if_neg hm], ?_⟩
      obtain ⟨h1, h2, h3, h4⟩ := gcm_fields salt iv
        (P.gcmTag (P.deriveKey password salt strength.bytes) iv
          (streamXor (P.gcmKeystream (P.deriveKey password salt strength.bytes) iv) 0 m))
        (streamXor (P.gcmKeystream (P.deriveKey password salt strength.bytes) iv) 0 m)
        hsalt hiv16 (hP.tag_len _ _ _)
      simp only [CryptoService.decrypt, h1, h2, h3, h4]
      rw [if_pos trivial, streamXor_streamXor]
  | CTR =>
      have hiv8 : iv.length = 8 := hiv
      refine ⟨_, by rw [CryptoService.encrypt, if_neg hm], ?_⟩
      obtain ⟨h1, h2, h3⟩ := ctr_fields salt iv
        (streamXor (P.ctrKeystream (P.deriveKey password salt strength.bytes) iv) 0 m)
        hsalt hiv8
      simp only [CryptoService.decrypt, h1, h2, h3]
      rw [streamXor_streamXor]
  | CBC =>
      have hiv16 : iv.length = 16 := hiv
      refine ⟨_, by rw [CryptoService.encrypt, if_neg hm], ?_⟩
      have hblocks : ∀ b ∈ chunk16 (pad16 m), b.length = 16 :=
        chunk16_mem_length _ (pad16_length_mod m)
      obtain ⟨h1, h2, h3⟩ := iv16_fields salt iv
        ((cbcEncChunks P (P.deriveKey password salt strength.bytes) iv
          (chunk16 (pad16 m))).flatten) hsalt hiv16
      simp only [CryptoService.decrypt, h1, h2, h3]
      rw [chunk16_of_flatten _ (cbcEncChunks_mem_length P hP _ _ iv hiv16 hblocks),
        cbcDecChunks_cbcEncChunks P hP _ _ iv hiv16 hblocks,
        chunk16_flatten, unpad16_pad16]
  | CFB =>
      have hiv16 : iv.length = 16 := hiv
      refine ⟨_, by rw [CryptoService.encrypt, if_neg hm], ?_⟩
      obtain ⟨h1, h2, h3⟩ := iv16_fields salt iv
        (cfbEncBytes P (P.deriveKey password salt strength.bytes) iv m) hsalt hiv16
      simp only [CryptoService.decrypt, h1, h2, h3]
      rw [cfbDecBytes_cfbEncBytes]

/-- A concrete instantiation of the external AES primitives (identity
block cipher, zero keystreams, constant tag, zero-filled derived key)
used only to evaluate the crypto theorems on concrete inputs. -/
def trivAes : AesPrimitives where
  encryptBlock := fun _ b => b
  decryptBlock := fun _ b => b
  ctrKeystream := fun _ _ _ => 0
  gcmKeystream := fun _ _ _ => 0
  gcmTag := fun _ _ _ => List.replicate 16 0
  deriveKey := fun _ _ n => List.replicate n 0

theorem trivAes_inverses : trivAes.Inverses where
  decrypt_encrypt := fun _ _ => rfl
  encrypt_len := fun _ _ h => h
  tag_len := fun _ _ _ => by simp [trivAes]

/-- Witness for C2 at a concrete plaintext, password, salt and IV, in
CBC mode with AES-128. -/
theorem decrypt_encrypt_roundtrip_witness :
    ∃ env, CryptoService.encrypt trivAes [104, 105] [112, 119] .aes128 .CBC
        (List.replicate 16 0) (List.replicate 16 7) = .ok env ∧
      CryptoService.decrypt trivAes env [112, 119] .aes128 .CBC = .ok [104, 105] :=
  decrypt_encrypt_roundtrip trivAes trivAes_inverses [104, 105] [112, 119]
    (List.replicate 16 0) (List.replicate 16 7) .aes128 .CBC (by simp)
    (by simp) (by simp [ivLen])

@[simp] theorem cbcEncChunks_length (P : AesPrimitives) (key : List Nat) :
    ∀ (prev : List Nat) (bs : List (List Nat)),
      (cbcEncChunks P key prev bs).length = bs.length
  | _, [] => rfl
  | prev, b :: bs => by
      simp [cbcEncChunks, cbcEncChunks_length P key]

/-- **C5.** For every supported mode, `encrypt` produces exactly the
mode-specific envelope layout — CBC/CFB `salt(16)+iv(16)+ciphertext` with
PKCS padding only in CBC (witnessed by the ciphertext lengths: padded to
the next multiple of 16 for CBC, exactly the plaintext length for
CFB/CTR/GCM), CTR `salt(16)+nonce(8)+ciphertext`, GCM
`salt(16)+nonce(16)+tag(16)+ciphertext` — and the field readers `decrypt`
uses recover each component from those same byte offsets. -/
theorem envelope_layout (P : AesPrimitives) (hP : P.Inverses)
    (m password salt iv16 iv8 : List Nat) (strength : KeySize)
    (hm : m ≠ []) (hsalt : salt.length = 16) (h16 : iv16.length = 16)
    (h8 : iv8.length = 8) :
    (∃ ct, CryptoService.encrypt P m password strength .CBC salt iv16 =
        .ok (salt ++ iv16 ++ ct) ∧
      ct.length = m.length + (16 - m.length % 16) ∧
      envSalt (salt ++ iv16 ++ ct) = salt ∧
      ivField (salt ++ iv16 ++ ct) = iv16 ∧
      cbcCiphertextField (salt ++ iv16 ++ ct) = ct) ∧
    (∃ ct, CryptoService.encrypt P m password strength .CFB salt iv16 =
        .ok (salt ++ iv16 ++ ct) ∧
      ct.length = m.length ∧
      envSalt (salt ++ iv16 ++ ct) = salt ∧
      ivField (salt ++ iv16 ++ ct) = iv16 ∧
      cbcCiphertextField (salt ++ iv16 ++ ct) = ct) ∧
    (∃ ct, CryptoService.encrypt P m password strength .CTR salt iv8 =
        .ok (salt ++ iv8 ++ ct) ∧
      ct.length = m.length ∧
      envSalt (salt ++ iv8 ++ ct) = salt ∧
      ctrNonceField (salt ++ iv8 ++ ct) = iv8 ∧
      ctrCiphertextField (salt ++ iv8 ++ ct) = ct) ∧
    (∃ tag ct, CryptoService.encrypt P m password strength .GCM salt iv16 =
        .ok (salt ++ iv16 ++ tag ++ ct) ∧
      tag.length = 16 ∧ ct.length = m.length ∧
      envSalt (salt ++ iv16 ++ tag ++ ct) = salt ∧
      gcmNonceField (salt ++ iv16 ++ tag ++ ct) = iv16 ∧
      gcmTagField (salt ++ iv16 ++ tag ++ ct) = tag ∧
      gcmCiphertextField (salt ++ iv16 ++ tag ++ ct) = ct) := by
  refine ⟨?_, ?_, ?_, ?_⟩
  · -- CBC
    have hblocks : ∀ b ∈ chunk16 (pad16 m), b.length = 16 :=
      chunk16_mem_length _ (pad16_length_mod m)
    have hencb := cbcEncChunks_mem_length P hP
      (P.deriveKey password salt strength.bytes) (chunk16 (pad16 m)) iv16 h16 hblocks
    have hchunks : 16 * (chunk16 (pad16 m)).length = (pad16 m).length := by
      conv_rhs => rw [← chunk16_flatten (pad16 m)]
      rw [flatten_length_of_mem16 _ hblocks]
    have hctlen :
        ((cbcEncChunks P (P.deriveKey password salt strength.bytes) iv16
          (chunk16 (pad16 m))).flatten).length = m.length + (16 - m.length % 16) := by
      rw [flatten_length_of_mem16 _ hencb, cbcEncChunks_length, hchunks, pad16_length]
    obtain ⟨f1, f2, f3⟩ := iv16_fields salt iv16
      ((cbcEncChunks P (P.deriveKey password salt strength.bytes) iv16
        (chunk16 (pad16 m))).flatten) hsalt h16
    exact ⟨_, by rw [CryptoService.encrypt, if_neg hm], hctlen, f1, f2, f3⟩
  · -- CFB
    obtain ⟨f1, f2, f3⟩ := iv16_fields salt iv16
      (cfbEncBytes P (P.deriveKey password salt strength.bytes) iv16 m) hsalt h16
    exact ⟨_, by rw [CryptoService.encrypt, if_neg hm],
      cfbEncBytes_length P _ iv16 m, f1, f2, f3⟩
  · -- CTR
    obtain ⟨f1, f2, f3⟩ := ctr_fields salt iv8
      (streamXor (P.ctrKeystream (P.deriveKey password salt strength.bytes) iv8) 0 m)
      hsalt h8
    exact ⟨_, by rw [CryptoService.encrypt, if_neg hm],
      streamXor_length _ 0 m, f1, f2, f3⟩
  · -- GCM
    obtain ⟨f1, f2, f3, f4⟩ := gcm_fields salt iv16
      (P.gcmTag (P.deriveKey password salt strength.bytes) iv16
        (streamXor (P.gcmKeystream (P.deriveKey password salt strength.bytes) iv16) 0 m))
      (streamXor (P.gcmKeystream (P.deriveKey password salt strength.bytes) iv16) 0 m)
      hsalt h16 (hP.tag_len _ _ _)
    exact ⟨_, _, by rw [CryptoService.encrypt, if_neg hm],
      hP.tag_len _ _ _, streamXor_length _ 0 m, f1, f2, f3, f4⟩

/-- Witness for C5 at concrete inputs (plaintext `[1,2,3]`, empty
password, zero salt/IVs, AES-256, trivial primitives). -/
theorem envelope_layout_witness :
    (∃ ct, CryptoService.encrypt trivAes [1, 2, 3] [] .aes256 .CBC
        (List.replicate 16 0) (List.replicate 16 0) =
        .ok (List.replicate 16 0 ++ List.replicate 16 0 ++ ct) ∧
      ct.length = 3 + (16 - 3 % 16) ∧
      envSalt (List.replicate 16 0 ++ List.replicate 16 0 ++ ct) = List.replicate 16 0 ∧
      ivField (List.replicate 16 0 ++ List.replicate 16 0 ++ ct) = List.replicate 16 0 ∧
      cbcCiphertextField (List.replicate 16 0 ++ List.replicate 16 0 ++ ct) = ct) ∧
    (∃ ct, CryptoService.encrypt trivAes [1, 2, 3] [] .aes256 .CFB
        (List.replicate 16 0) (List.replicate 16 0) =
        .ok (List.replicate 16 0 ++ List.replicate 16 0 ++ ct) ∧
      ct.length = 3 ∧
      envSalt (List.replicate 16 0 ++ List.replicate 16 0 ++ ct) = List.replicate 16 0 ∧
      ivField (List.replicate 16 0 ++ List.replicate 16 0 ++ ct) = List.replicate 16 0 ∧
      cbcCiphertextField (List.replicate 16 0 ++ List.replicate 16 0 ++ ct) = ct) ∧
    (∃ ct, CryptoService.encrypt trivAes [1, 2, 3] [] .aes256 .CTR
        (List.replicate 16 0) (List.replicate 8 0) =
        .ok (List.replicate 16 0 ++ List.replicate 8 0 ++ ct) ∧
      ct.length = 3 ∧
      envSalt (List.replicate 16 0 ++ List.replicate 8 0 ++ ct) = List.replicate 16 0 ∧
      ctrNonceField (List.replicate 16 0 ++ List.replicate 8 0 ++ ct) = List.replicate 8 0 ∧
      ctrCiphertextField (List.replicate 16 0 ++ List.replicate 8 0 ++ ct) = ct) ∧
    (∃ tag ct, CryptoService.encrypt trivAes [1, 2, 3] [] .aes256 .GCM
        (List.replicate 16 0) (List.replicate 16 0) =
        .ok (List.replicate 16 0 ++ List.replicate 16 0 ++ tag ++ ct) ∧
      tag.length = 16 ∧ ct.length = 3 ∧
      envSalt (List.replicate 16 0 ++ List.replicate 16 0 ++ tag ++ ct) =
        List.replicate 16 0 ∧
      gcmNonceField (List.replicate 16 0 ++ List.replicate 16 0 ++ tag ++ ct) =
        List.replicate 16 0 ∧
      gcmTagField (List.replicate 16 0 ++ List.replicate 16 0 ++ tag ++ ct) = tag ∧
      gcmCiphertextField (List.replicate 16 0 ++ List.replicate 16 0 ++ tag ++ ct) = ct) :=
  envelope_layout trivAes trivAes_inverses [1, 2, 3] []
    (List.replicate 16 0) (List.replicate 16 0) (List.replicate 8 0) .aes256
    (by simp) (by simp) (by simp) (by simp)

/-- **C6 (amended).** `decrypt` performs no truncated-envelope check at
all: no code path produces the truncated-input error.  Envelope fields
are sliced unconditionally (a short envelope just yields short slices)
and any failure surfaces from the cipher layer — GCM tag verification or
CBC unpadding. -/
theorem decrypt_never_truncatedInput (P : AesPrimitives)
    (env password : List Nat) (strength : KeySize) (mode : CipherMode) :
    CryptoService.decrypt P env password strength mode ≠
      .error .truncatedInput := by
  cases mode with
  | GCM =>
      simp only [CryptoService.decrypt]
      split <;> simp
  | CTR => simp [CryptoService.decrypt]
  | CBC => exact unpad16_ne_truncated _
  | CFB => simp [CryptoService.decrypt]

/-- Counterexample for C6: a 20-byte envelope is shorter than GCM's
48-byte minimum (`salt+nonce+tag`), yet `decrypt` raises the GCM
authentication error from the cipher layer — not a truncated-input
error — having happily sliced short fields. -/
theorem decrypt_truncated_counterexample :
    CryptoService.decrypt trivAes (List.replicate 20 0) [] .aes256 .GCM =
      .error .authenticationError ∧
    (Except.error CryptoError.authenticationError :
        Except CryptoError (List Nat)) ≠ .error .truncatedInput :=
  ⟨rfl, by simp⟩

/-! ## SteganographyService: frames, capacity, embedding, extraction

Source: `app/services/steganography_service.py`.  A numpy frame of shape
`(h, w, 3)` is modelled by its shape and its row-major flattened sample
list (`y`, then `x`, then channel — exactly numpy's `flatten` order).
The Reed-Solomon codec (`reedsolo.RSCodec(10)`) and OpenCV's colour
conversions are external libraries, so they are parameters (`EccCodec`,
`CvColor`); every traversal, slicing and bit operation of the service is
translated directly. -/

/-- `SteganographyService.RS_ECC_SYMBOLS`. -/
def RS_ECC_SYMBOLS : Nat := 10

/-- `SteganographyService.LENGTH_HEADER_BITS`. -/
def LENGTH_HEADER_BITS : Nat := 32

/-- A video frame: shape `(h, w, 3)` with its row-major flattened
8-bit samples. -/
structure Frame where
  h : Nat
  w : Nat
  data : List Nat
deriving DecidableEq, Repr

/-- The `reedsolo` codec (`RSCodec(RS_ECC_SYMBOLS)`), abstract: `encode`
appends parity symbols, `decode` corrects and strips them (raising
`ReedSolomonError`, modelled as the error case, when it cannot). -/
structure EccCodec where
  encode : List Nat → List Nat
  decode : List Nat → Except String (List Nat)

/-- OpenCV colour conversion (`cv2.cvtColor`), abstract: both directions
operate on a flattened `(h, w, 3)` sample list. -/
structure CvColor where
  bgr2ycrcb : List Nat → List Nat
  ycrcb2bgr : List Nat → List Nat

/-- `channel_mode` argument: `'rgb'` or `'luma'` (any other string raises
`ValueError`, so the supported modes form this closed type). -/
inductive ChannelMode | rgb | luma
deriving DecidableEq, Repr

/-- One entry of a `regions` list: the `x`/`y`/`width`/`height` values
read with `int(region.get(..., 0))`; kept as integers because the source
clips negative values. -/
structure Region where
  x : Int
  y : Int
  width : Int
  height : Int
deriving DecidableEq, Repr

/-- Python truthiness of the `regions` argument (`if regions:`): both
`None` and the empty list select the whole-frame path. -/
def hasRegions : Option (List Region) → Bool
  | none => false
  | some [] => false
  | some (_ :: _) => true

/-- `set_bit` inside `embed_in_frame`:
`(value & ~(1 << bit_position)) | (bit << bit_position)` — the bits above
`bit_position`, the bits below it, and the new bit at it. -/
def set_bit (bit_position value bit : Nat) : Nat :=
  ((value >>> (bit_position + 1)) <<< (bit_position + 1)) |||
    (value % 2 ^ bit_position) ||| (bit <<< bit_position)

/-- `get_bit` inside `extract_from_frame`: `(value >> bit_position) & 1`. -/
def get_bit (bit_position value : Nat) : Nat :=
  (value >>> bit_position) &&& 1

/-- The whole-frame embedding loop (`for i in range(len(flat))` with the
bit iterator): set the target bit of successive samples until either the
bits or the samples run out. -/
def embedFlat (bp : Nat) : List Nat → List Nat → List Nat
  | [], flat => flat
  | _, [] => []
  | b :: bs, v :: vs => set_bit bp v b :: embedFlat bp bs vs

/-- Write bits at an explicit sample-index trail (the region traversal):
each visited index receives the next bit; stops when bits run out. -/
def embedAt (bp : Nat) : List Nat → List Nat → List Nat → List Nat
  | [], _, flat => flat
  | _ :: _, [], flat => flat
  | i :: is, b :: bs, flat =>
      embedAt bp is bs (flat.set i (set_bit bp (flat.getD i 0) b))

/-- Python's `range(a, b)` over integers, as the list of its elements. -/
def rangeInt (a b : Int) : List Int :=
  (List.range (b - a).toNat).map (fun i => a + (i : Int))

/-- Pixel indices (`y * w + x`) visited by the region loops of
`embed_in_frame`/`extract_from_frame`: regions with non-positive raw
width/height are skipped; `y1 = min(y0 + h, H)` and `x1 = min(x0 + w, W)`
are computed from the *raw* origin before it is clamped to 0. -/
def regionPixelIndices (H W : Nat) (r : Region) : List Nat :=
  if r.width ≤ 0 ∨ r.height ≤ 0 then []
  else
    let y1 := min (r.y + r.height) (H : Int)
    let x1 := min (r.x + r.width) (W : Int)
    let y0 := max 0 r.y
    let x0 := max 0 r.x
    (rangeInt y0 y1).flatMap (fun y => (rangeInt x0 x1).map (fun x => (y * W + x).toNat))

/-- Sample indices for the rgb region path: three interleaved channels
per visited pixel. -/
def regionSampleIndicesRgb (H W : Nat) (rs : List Region) : List Nat :=
  rs.flatMap (fun r => (regionPixelIndices H W r).flatMap
    (fun p => [3 * p, 3 * p + 1, 3 * p + 2]))

/-- Sample indices for the luma region path: channel 0 of each visited
pixel of the YCrCb array. -/
def regionSampleIndicesLuma (H W : Nat) (rs : List Region) : List Nat :=
  rs.flatMap (fun r => (regionPixelIndices H W r).map (fun p => 3 * p))

/-- The Y plane of a flattened `(h, w, 3)` YCrCb array: every third
sample (`ycrcb[:, :, 0]`). -/
def planeOf (d : List Nat) : List Nat :=
  match d with
  | [] => []
  | a :: rest => a :: planeOf (rest.drop 2)
termination_by d.length
decreasing_by simp only [List.length_drop, List.length_cons]; omega

/-- Write a Y plane back into a flattened YCrCb array
(`ycrcb[:, :, 0] = plane`). -/
def setPlane (d ys : List Nat) : List Nat :=
  match d, ys with
  | [], _ => []
  | d, [] => d
  | a :: rest, y :: ys => y :: (rest.take 2 ++ setPlane (rest.drop 2) ys)
termination_by d.length
decreasing_by simp only [List.length_drop, List.length_cons]; omega

/-- `SteganographyService.embed_in_frame`: returns the modified frame
(`work_frame.astype(np.uint8)`, hence the final `% 256`) and the number
of bits embedded.  The input frame is copied, never mutated (that memory
fact is proved separately over the heap model below). -/
def embed_in_frame (cv : CvColor) (f : Frame) (data_bits : List Nat)
    (bit_position : Nat) (regions : Option (List Region))
    (channel_mode : ChannelMode) : Frame × Nat :=
  match channel_mode with
  | .rgb =>
      if hasRegions regions then
        let idxs := regionSampleIndicesRgb f.h f.w (regions.getD [])
        ({ f with data := (embedAt bit_position idxs data_bits f.data).map (· % 256) },
         min data_bits.length idxs.length)
      else
        ({ f with data := (embedFlat bit_position data_bits f.data).map (· % 256) },
         min data_bits.length f.data.length)
  | .luma =>
      let ycrcb := cv.bgr2ycrcb f.data
      if hasRegions regions then
        let idxs := regionSampleIndicesLuma f.h f.w (regions.getD [])
        ({ f with data := (cv.ycrcb2bgr (embedAt bit_position idxs data_bits ycrcb)).map (· % 256) },
         min data_bits.length idxs.length)
      else
        let plane := planeOf ycrcb
        ({ f with data := (cv.ycrcb2bgr (setPlane ycrcb
            (embedFlat bit_position data_bits plane))).map (· % 256) },
         min data_bits.length plane.length)

/-- `SteganographyService.extract_from_frame`: read bits in exactly the
embedding traversal order, stopping at `num_bits`. -/
def extract_from_frame (cv : CvColor) (f : Frame) (num_bits : Nat)
    (bit_position : Nat) (regions : Option (List Region))
    (channel_mode : ChannelMode) : List Nat :=
  match channel_mode with
  | .rgb =>
      if hasRegions regions then
        ((regionSampleIndicesRgb f.h f.w (regions.getD [])).take num_bits).map
          (fun i => get_bit bit_position (f.data.getD i 0))
      else
        (f.data.take num_bits).map (get_bit bit_position)
  | .luma =>
      let plane := planeOf (cv.bgr2ycrcb f.data)
      if hasRegions regions then
        ((regionSampleIndicesLuma f.h f.w (regions.getD [])).take num_bits).map
          (fun i => get_bit bit_position ((cv.bgr2ycrcb f.data).getD i 0))
      else
        (plane.take num_bits).map (get_bit bit_position)

/-- One region's contribution to `frame_capacity_bits` inside
`embed_message`: origin clamped into the frame, extent clamped from the
clamped origin, empty if degenerate. -/
def regionCapacity (H W channels : Nat) (r : Region) : Nat :=
  let x0 : Int := max 0 (min (W : Int) r.x)
  let y0 : Int := max 0 (min (H : Int) r.y)
  let x1 : Int := max 0 (min (W : Int) (x0 + max 0 r.width))
  let y1 : Int := max 0 (min (H : Int) (y0 + max 0 r.height))
  if x1 ≤ x0 ∨ y1 ≤ y0 then 0
  else ((x1 - x0) * (y1 - y0)).toNat * channels

/-- `frame_capacity_bits` inside `embed_message`: whole-frame capacity is
`height * width * channels` (1 channel for luma, 3 for rgb); with regions
it sums the clipped region areas times the channel count. -/
def frame_capacity_bits (f : Frame) (regions : Option (List Region))
    (channel_mode : ChannelMode) : Nat :=
  let channels := match channel_mode with | .luma => 1 | .rgb => 3
  if hasRegions regions then
    ((regions.getD []).map (regionCapacity f.h f.w channels)).sum
  else f.h * f.w * channels

/-- `data_length.to_bytes(4, byteorder='big')`. -/
def toBytesBE4 (n : Nat) : List Nat :=
  [n / 2 ^ 24 % 256, n / 2 ^ 16 % 256, n / 2 ^ 8 % 256, n % 256]

/-- `int.from_bytes(..., byteorder='big')`. -/
def fromBytesBE (bs : List Nat) : Nat :=
  bs.foldl (fun acc b => acc * 256 + b) 0

/-- Error taxonomy of the steganography layer.  `capacityExceeded`
carries the two numbers the source reports ("`n` bits needed, `m` bits
available"); `lengthOverflow` is `int.to_bytes` overflow for a protected
payload of 2^32 bytes or more; `invalidLength` and `headerNotFound` are
the two `ValueError`s of `extract_message`; `extractionFailed` wraps any
decode failure. -/
inductive StegoError
  | capacityExceeded (needed available : Nat)
  | lengthOverflow
  | invalidLength (declared : Nat)
  | headerNotFound
  | extractionFailed
deriving DecidableEq, Repr

/-- Lines 282–291 of `embed_message`: Reed-Solomon-protect the encrypted
payload, prefix the 4-byte big-endian length *of the protected block*,
and turn the whole framed payload into bits. -/
def framedBits (ecc : EccCodec) (encrypted_data : List Nat) : List Nat :=
  data_to_bits (toBytesBE4 (ecc.encode encrypted_data).length ++ ecc.encode encrypted_data)

/-- `regions_by_frame` (`dict` from frame index to region list, or
`None`), with `dict.get` lookup. -/
def lookupRegions : Option (List (Nat × List Region)) → Nat → Option (List Region)
  | none, _ => none
  | some m, i => (m.find? (fun p => p.1 == i)).map Prod.snd

/-- Result dictionary of `embed_message`.  `modified` records the
`modified_frames[frame_idx] = modified_frame` assignments in program
order; dictionary reads take the last assignment for a key. -/
structure EmbedResult where
  modified : List (Nat × Frame)
  bitsEmbedded : Nat
  dataLength : Nat
  protectedLength : Nat
  framesUsed : Nat

/-- The frame loop of `embed_message`: walk frames in the given order,
break once all bits are consumed, give each frame the next
`frame_capacity` bits, and record every modified frame. -/
def embedLoop (cv : CvColor) (bp : Nat) (mode : ChannelMode)
    (regsMap : Option (List (Nat × List Region))) (allBits : List Nat) :
    List (Nat × Frame) → Nat → List (Nat × Frame) × Nat
  | [], cur => ([], cur)
  | (i, f) :: rest, cur =>
      if allBits.length ≤ cur then ([], cur)
      else
        let regions := lookupRegions regsMap i
        let cap := frame_capacity_bits f regions mode
        let r := embed_in_frame cv f ((allBits.drop cur).take cap) bp regions mode
        let next := embedLoop cv bp mode regsMap allBits rest (cur + r.2)
        ((i, r.1) :: next.1, next.2)

/-- `SteganographyService.embed_message`. -/
def embed_message (cv : CvColor) (ecc : EccCodec)
    (frames : List (Nat × Frame)) (encrypted_data : List Nat)
    (regsMap : Option (List (Nat × List Region))) (bp : Nat)
    (mode : ChannelMode) : Except StegoError EmbedResult :=
  if 2 ^ 32 ≤ (ecc.encode encrypted_data).length then .error .lengthOverflow
  else
    let all_bits := framedBits ecc encrypted_data
    let total_capacity :=
      (frames.map (fun p => frame_capacity_bits p.2 (lookupRegions regsMap p.1) mode)).sum
    if total_capacity < all_bits.length then
      .error (.capacityExceeded all_bits.length total_capacity)
    else
      let r := embedLoop cv bp mode regsMap all_bits frames 0
      .ok { modified := r.1
            bitsEmbedded := r.2
            dataLength := encrypted_data.length
            protectedLength := (ecc.encode encrypted_data).length
            framesUsed := (r.1.map Prod.fst).dedup.length }

/-- Last dictionary assignment for a frame index in `modified_frames`. -/
def lookupLast (m : List (Nat × Frame)) (i : Nat) : Option Frame :=
  ((m.filter (fun p => p.1 == i)).getLast?).map Prod.snd

/-- Replace each frame of the ordered input list by its modified version
when one exists (the claims' "substituted at their indices"). -/
def substitute (frames modified : List (Nat × Frame)) : List (Nat × Frame) :=
  frames.map (fun p => (p.1, (lookupLast modified p.1).getD p.2))

/-- Bits requested from one frame by `extract_message`: the full sample
count for rgb, the Y-plane size for luma. -/
def extractNumBits (cv : CvColor) (f : Frame) : ChannelMode → Nat
  | .rgb => f.data.length
  | .luma => (planeOf (cv.bgr2ycrcb f.data)).length

/-- Tail of `extract_message` once the header is known: slice the
declared number of payload bits, pack them into bytes, Reed-Solomon
decode (any failure becomes the wrapped extraction error). -/
def finishExtract (ecc : EccCodec) (acc : List Nat) (dl : Nat) :
    Except StegoError (List Nat) :=
  match ecc.decode (bits_to_bytes ((acc.drop 32).take (dl * 8))) with
  | .ok d => .ok d
  | .error _ => .error .extractionFailed

/-- The frame loop of `extract_message`: append each frame's bits, parse
the 32-bit length header as soon as available (validating
`0 < length ≤ 100 MiB`), stop as soon as `32 + length*8` bits are
buffered; if frames run out with the header parsed, decode whatever was
buffered, otherwise fail with the header error. -/
def extractGo (cv : CvColor) (ecc : EccCodec)
    (regsMap : Option (List (Nat × List Region))) (bp : Nat)
    (mode : ChannelMode) :
    List (Nat × Frame) → List Nat → Option Nat → Except StegoError (List Nat)
  | [], _, none => .error .headerNotFound
  | [], acc, some dl => finishExtract ecc acc dl
  | (i, f) :: rest, acc, dl =>
      let acc2 := acc ++
        extract_from_frame cv f (extractNumBits cv f mode) bp (lookupRegions regsMap i) mode
      match dl with
      | none =>
          if 32 ≤ acc2.length then
            let d := fromBytesBE (bits_to_bytes (acc2.take 32))
            if d = 0 ∨ 100 * 1024 * 1024 < d then .error (.invalidLength d)
            else if 32 + d * 8 ≤ acc2.length then finishExtract ecc acc2 d
            else extractGo cv ecc regsMap bp mode rest acc2 (some d)
          else extractGo cv ecc regsMap bp mode rest acc2 none
      | some d =>
          if 32 + d * 8 ≤ acc2.length then finishExtract ecc acc2 d
          else extractGo cv ecc regsMap bp mode rest acc2 (some d)

/-- `SteganographyService.extract_message`. -/
def extract_message (cv : CvColor) (ecc : EccCodec)
    (frames : List (Nat × Frame))
    (regsMap : Option (List (Nat × List Region))) (bp : Nat)
    (mode : ChannelMode) : Except StegoError (List Nat) :=
  extractGo cv ecc regsMap bp mode frames [] none

/-- A concrete stand-in for the external `reedsolo` codec, used only to
evaluate the steganography theorems on concrete inputs: parity is ten
zero bytes, decoding strips them. -/
def trivEcc : EccCodec where
  encode := fun d => d ++ List.replicate 10 0
  decode := fun d => .ok (d.take (d.length - 10))

theorem trivEcc_decode_encode (d : List Nat) :
    trivEcc.decode (trivEcc.encode d) = .ok d := by
  simp [trivEcc]

/-- A concrete stand-in for OpenCV colour conversion (identity both
ways), used only to evaluate theorems on concrete inputs. -/
def trivCv : CvColor where
  bgr2ycrcb := id
  ycrcb2bgr := id

/-! ### Length-prefix framing: claim C4 -/

theorem toBytesBE4_lt (n : Nat) : ∀ b ∈ toBytesBE4 n, b < 256 := by
  simp only [toBytesBE4, List.mem_cons, List.not_mem_nil, or_false]
  rintro b (rfl | rfl | rfl | rfl) <;> omega

@[simp] theorem toBytesBE4_length (n : Nat) : (toBytesBE4 n).length = 4 := rfl

theorem fromBytesBE_toBytesBE4 (n : Nat) (h : n < 2 ^ 32) :
    fromBytesBE (toBytesBE4 n) = n := by
  simp only [fromBytesBE, toBytesBE4, List.foldl_cons, List.foldl_nil]
  omega

/-- The first 32 bits of the framed payload are exactly the header bits. -/
theorem framedBits_take_32 (ecc : EccCodec) (d : List Nat) :
    (framedBits ecc d).take 32 = data_to_bits (toBytesBE4 (ecc.encode d).length) := by
  rw [framedBits, data_to_bits_append]
  exact take_len_append _ _ _ (by simp [data_to_bits_length])

/-- The bits after the header are exactly the protected block's bits. -/
theorem framedBits_drop_32 (ecc : EccCodec) (d : List Nat) :
    (framedBits ecc d).drop 32 = data_to_bits (ecc.encode d) := by
  rw [framedBits, data_to_bits_append]
  exact drop_len_append _ _ _ (by simp [data_to_bits_length])

@[simp] theorem framedBits_length (ecc : EccCodec) (d : List Nat) :
    (framedBits ecc d).length = 32 + (ecc.encode d).length * 8 := by
  simp [framedBits, data_to_bits_length]
  ring

/-- The 32 header bits of the framed payload decode back to the
protected block's byte length. -/
theorem framed_header_value (ecc : EccCodec) (d : List Nat)
    (h32 : (ecc.encode d).length < 2 ^ 32) :
    fromBytesBE (bits_to_bytes ((framedBits ecc d).take 32)) =
      (ecc.encode d).length := by
  rw [framedBits_take_32, bytes_bits_roundtrip _ (toBytesBE4_lt _),
    fromBytesBE_toBytesBE4 _ h32]

/-- **C4.** The framed bit sequence built by `embed_message` begins with
a 4-byte big-endian header whose value is the byte length of the
ECC-protected block that follows — and therefore not the length of the
pre-protection ciphertext, since Reed-Solomon encoding appends
`RS_ECC_SYMBOLS` parity bytes. -/
theorem length_header_value (ecc : EccCodec) (d : List Nat)
    (h32 : (ecc.encode d).length < 2 ^ 32)
    (h10 : (ecc.encode d).length = d.length + RS_ECC_SYMBOLS) :
    fromBytesBE (bits_to_bytes ((framedBits ecc d).take 32)) = (ecc.encode d).length ∧
    fromBytesBE (bits_to_bytes ((framedBits ecc d).take 32)) ≠ d.length := by
  have hval := framed_header_value ecc d h32
  refine ⟨hval, ?_⟩
  rw [hval, h10, RS_ECC_SYMBOLS]
  omega

/-- Witness for C4: payload `[5]`, ten parity bytes, header reads 11. -/
theorem length_header_value_witness :
    fromBytesBE (bits_to_bytes ((framedBits trivEcc [5]).take 32)) =
      (trivEcc.encode [5]).length ∧
    fromBytesBE (bits_to_bytes ((framedBits trivEcc [5]).take 32)) ≠
      [5].length :=
  length_header_value trivEcc [5] (by decide) (by decide)

/-! ### Capacity check: claim C7 -/

/-- **C7.** Under any plan (frame order, per-frame regions, bit plane,
channel mode), `embed_message` succeeds exactly when the framed-and-
protected payload's bit length fits the total capacity summed over the
supplied frames, and otherwise raises the capacity error carrying both
the bits needed and the bits available; whole-frame capacity is
`height·width·channels` (3 channels for rgb, 1 for luma).  The side
condition keeps the protected block below `int.to_bytes`' 4-byte bound. -/
theorem embed_capacity_check (cv : CvColor) (ecc : EccCodec)
    (frames : List (Nat × Frame)) (payload : List Nat)
    (regsMap : Option (List (Nat × List Region))) (bp : Nat) (mode : ChannelMode)
    (hlen : (ecc.encode payload).length < 2 ^ 32) :
    ((framedBits ecc payload).length ≤
        (frames.map fun p => frame_capacity_bits p.2 (lookupRegions regsMap p.1) mode).sum →
      ∃ r, embed_message cv ecc frames payload regsMap bp mode = .ok r) ∧
    ((frames.map fun p => frame_capacity_bits p.2 (lookupRegions regsMap p.1) mode).sum <
        (framedBits ecc payload).length →
      embed_message cv ecc frames payload regsMap bp mode =
        .error (.capacityExceeded (framedBits ecc payload).length
          ((frames.map fun p => frame_capacity_bits p.2 (lookupRegions regsMap p.1) mode).sum))) ∧
    (∀ f : Frame, frame_capacity_bits f none .rgb = f.h * f.w * 3 ∧
      frame_capacity_bits f none .luma = f.h * f.w * 1) := by
  refine ⟨?_, ?_, ?_⟩
  · intro hcap
    rw [embed_message, if_neg (by omega), if_neg (by omega)]
    exact ⟨_, rfl⟩
  · intro hcap
    rw [embed_message, if_neg (by omega), if_pos hcap]
  · intro f
    exact ⟨rfl, rfl⟩

/-- Witness for C7: a single 1×38 rgb frame offers 114 bits, enough for
the 112-bit framed empty payload, so embedding succeeds. -/
theorem embed_capacity_check_witness :
    ∃ r, embed_message trivCv trivEcc [(0, Frame.mk 1 38 (List.replicate 114 0))]
      [] none 0 .rgb = .ok r :=
  (embed_capacity_check trivCv trivEcc [(0, Frame.mk 1 38 (List.replicate 114 0))]
    [] none 0 .rgb (by decide)).1 (by decide)

/-! ### Embed/extract round trip: claim C1

The plan fixed by the claim: whole-frame scan (`regions_by_frame = None`),
rgb channel mode, `bit_position = 0`. -/

/-- An even number or-ed with a single bit is their sum. -/
theorem even_or_bit (k b : Nat) (hb : b ≤ 1) : (2 * k) ||| b = 2 * k + b := by
  interval_cases b
  · simp
  · have h1 : (2 * k : Nat) = Nat.bit false k := by simp [Nat.bit_val]
    have h2 : (1 : Nat) = Nat.bit true 0 := by simp [Nat.bit_val]
    rw [h1, h2, Nat.lor_bit]
    simp [Nat.bit_val]

theorem get_bit_zero (v : Nat) : get_bit 0 v = v % 2 := by
  simp [get_bit, Nat.and_one_is_mod]

theorem set_bit_zero (v b : Nat) (hb : b ≤ 1) :
    set_bit 0 v b = 2 * (v / 2) + b := by
  have h1 : (v >>> 1) <<< 1 = 2 * (v / 2) := by
    simp [Nat.shiftRight_succ, Nat.shiftLeft_eq]
    omega
  have h2 : v % 2 ^ 0 = 0 := by simp [Nat.mod_one]
  rw [set_bit, h1, h2, Nat.or_zero, Nat.shiftLeft_zero, even_or_bit _ _ hb]

/-- Reading back bit 0 of a written sample, after the `astype(np.uint8)`
truncation, returns the written bit. -/
theorem get_set_bit_zero (v b : Nat) (hb : b ≤ 1) :
    get_bit 0 (set_bit 0 v b % 256) = b := by
  rw [get_bit_zero, Nat.mod_mod_of_dvd _ (by norm_num), set_bit_zero v b hb]
  omega

@[simp] theorem embedFlat_length (bp : Nat) :
    ∀ (bits flat : List Nat), (embedFlat bp bits flat).length = flat.length
  | [], _ => by simp [embedFlat]
  | _ :: _, [] => by simp [embedFlat]
  | _ :: bs, _ :: vs => by simp [embedFlat, embedFlat_length bp bs vs]

/-- Reading bit 0 of every truncated sample of an embedded flat array
returns the embedded bits followed by the untouched samples' bits. -/
theorem map_get_embedFlat :
    ∀ (bits flat : List Nat), (∀ b ∈ bits, b ≤ 1) → bits.length ≤ flat.length →
      (embedFlat 0 bits flat).map (fun v => get_bit 0 (v % 256)) =
        bits ++ (flat.drop bits.length).map (fun v => get_bit 0 (v % 256))
  | [], flat, _, _ => by simp [embedFlat]
  | b :: bs, [], _, hlen => by simp at hlen
  | b :: bs, v :: vs, hb, hlen => by
      simp only [embedFlat, List.map_cons, List.length_cons,
        List.drop_succ_cons, List.cons_append]
      rw [get_set_bit_zero v b (hb b (List.mem_cons_self b bs)),
        map_get_embedFlat bs vs (fun x hx => hb x (List.mem_cons_of_mem b hx))
          (by simpa using hlen)]

/-- Every bit produced by `data_to_bits` is 0 or 1. -/
theorem data_to_bits_le_one (d : List Nat) : ∀ x ∈ data_to_bits d, x ≤ 1 := by
  intro x hx
  simp only [data_to_bits, List.mem_flatMap, byteToBits, List.mem_map,
    List.mem_range] at hx
  obtain ⟨b, _, i, _, rfl⟩ := hx
  have : (b >>> (7 - i)) &&& 1 = (b >>> (7 - i)) % 2 := Nat.and_one_is_mod _
  omega

/-- The bit stream `extract_message` assembles from a frame list under
the whole-frame rgb plan at bit position 0. -/
def streamBits (fs : List (Nat × Frame)) : List Nat :=
  fs.flatMap (fun p => p.2.data.map (get_bit 0))

@[simp] theorem streamBits_nil : streamBits [] = [] := rfl

@[simp] theorem streamBits_cons (p : Nat × Frame) (fs : List (Nat × Frame)) :
    streamBits (p :: fs) = p.2.data.map (get_bit 0) ++ streamBits fs := by
  simp [streamBits]

/-- Under the whole-frame rgb plan, extraction reads bit 0 of every
sample of the frame. -/
theorem extract_from_frame_rgb_whole (cv : CvColor) (f : Frame) :
    extract_from_frame cv f f.data.length 0 none .rgb =
      f.data.map (get_bit 0) := by
  simp [extract_from_frame, hasRegions]

/-- Under the whole-frame rgb plan, `embed_in_frame` writes the bits into
the flattened samples and reports how many fit. -/
theorem embed_in_frame_rgb_whole (cv : CvColor) (f : Frame) (bits : List Nat)
    (bp : Nat) :
    embed_in_frame cv f bits bp none .rgb =
      ({ f with data := (embedFlat bp bits f.data).map (· % 256) },
       min bits.length f.data.length) := rfl

/-- The frame list that extraction sees after substituting the modified
frames, computed positionally: each frame in order receives the next
slice of the bit stream, frames after exhaustion stay as given.  Proved
below to agree with `substitute` applied to `embedLoop`'s dictionary. -/
def embedSubstSpec (cv : CvColor) (allBits : List Nat) :
    List (Nat × Frame) → Nat → List (Nat × Frame)
  | [], _ => []
  | (i, f) :: rest, cur =>
      if allBits.length ≤ cur then (i, f) :: embedSubstSpec cv allBits rest cur
      else
        let r := embed_in_frame cv f
          ((allBits.drop cur).take (frame_capacity_bits f none .rgb)) 0 none .rgb
        (i, r.1) :: embedSubstSpec cv allBits rest (cur + r.2)

theorem substitute_nil_modified (fs : List (Nat × Frame)) :
    substitute fs [] = fs := by
  simp [substitute, lookupLast]

theorem embedSubstSpec_of_done (cv : CvColor) (allBits : List Nat) :
    ∀ (fs : List (Nat × Frame)) (cur : Nat), allBits.length ≤ cur →
      embedSubstSpec cv allBits fs cur = fs
  | [], _, _ => rfl
  | (i, f) :: rest, cur, hcur => by
      rw [embedSubstSpec, if_pos hcur, embedSubstSpec_of_done cv allBits rest cur hcur]

theorem embedLoop_keys_subset (cv : CvColor) (allBits : List Nat) :
    ∀ (fs : List (Nat × Frame)) (cur : Nat) (j : Nat),
      j ∈ (embedLoop cv 0 .rgb none allBits fs cur).1.map Prod.fst →
      j ∈ fs.map Prod.fst
  | [], _, _ => by simp [embedLoop]
  | (i, f) :: rest, cur, j => by
      rw [embedLoop]
      split
      · simp
      · simp only [List.map_cons, List.mem_cons]
        rintro (rfl | hj)
        · exact Or.inl rfl
        · exact Or.inr (embedLoop_keys_subset cv allBits rest _ j hj)

theorem lookupLast_cons_self (i : Nat) (nf : Frame) (m : List (Nat × Frame))
    (hi : i ∉ m.map Prod.fst) : lookupLast ((i, nf) :: m) i = some nf := by
  have hfil : m.filter (fun p => p.1 == i) = [] := by
    rw [List.filter_eq_nil_iff]
    intro p hp
    simp only [beq_iff_eq]
    intro hpi
    exact hi (by simpa [hpi] using List.mem_map_of_mem Prod.fst hp)
  simp [lookupLast, List.filter_cons, hfil]

theorem lookupLast_cons_ne (i : Nat) (nf : Frame) (m : List (Nat × Frame))
    (j : Nat) (hne : i ≠ j) : lookupLast ((i, nf) :: m) j = lookupLast m j := by
  simp [lookupLast, List.filter_cons, hne]

theorem substitute_cons (p : Nat × Frame) (fs m : List (Nat × Frame)) :
    substitute (p :: fs) m =
      (p.1, (lookupLast m p.1).getD p.2) :: substitute fs m := rfl

theorem substitute_cons_irrelevant (i : Nat) (nf : Frame) :
    ∀ (fs : List (Nat × Frame)) (m : List (Nat × Frame)),
      i ∉ fs.map Prod.fst →
      substitute fs ((i, nf) :: m) = substitute fs m
  | [], _, _ => rfl
  | (j, f) :: rest, m, hi => by
      have hji : i ≠ j := by
        intro h
        exact hi (by simp [h])
      rw [substitute_cons, substitute_cons, lookupLast_cons_ne i nf m j hji,
        substitute_cons_irrelevant i nf rest m
          (fun h => hi (List.mem_cons_of_mem _ h))]

/-- With distinct frame indices, substituting `embed_message`'s modified
frames back into the input list is the positional replacement
`embedSubstSpec`. -/
theorem substitute_embedLoop (cv : CvColor) (allBits : List Nat) :
    ∀ (fs : List (Nat × Frame)) (cur : Nat), (fs.map Prod.fst).Nodup →
      substitute fs (embedLoop cv 0 .rgb none allBits fs cur).1 =
        embedSubstSpec cv allBits fs cur
  | [], _, _ => rfl
  | (i, f) :: rest, cur, hnodup => by
      rw [List.map_cons, List.nodup_cons] at hnodup
      obtain ⟨hi_rest, hrest_nodup⟩ := hnodup
      rw [embedLoop, embedSubstSpec]
      split
      next hdone =>
        rw [embedSubstSpec_of_done cv allBits rest cur hdone]
        exact substitute_nil_modified _
      next hne =>
        dsimp only
        rw [substitute_cons,
          lookupLast_cons_self i ((embed_in_frame cv f ((allBits.drop cur).take
              (frame_capacity_bits f (lookupRegions none i) ChannelMode.rgb)) 0
              (lookupRegions none i) ChannelMode.rgb).1) _
            (fun hmem => hi_rest (embedLoop_keys_subset cv allBits rest _ i hmem)),
          substitute_cons_irrelevant i _ rest _ hi_rest,
          substitute_embedLoop cv allBits rest _ hrest_nodup]
        rfl

theorem prefix_append_left (x : List Nat) {l₁ l₂ : List Nat} (h : l₁ <+: l₂) :
    x ++ l₁ <+: x ++ l₂ := by
  obtain ⟨t, rfl⟩ := h
  exact ⟨t, by rw [List.append_assoc]⟩

/-- The whole bit stream read back from the substituted frames starts
with the embedded bit stream, as long as the remaining capacity covers
the remaining bits. -/
theorem embedSubstSpec_stream_covers (cv : CvColor) (allBits : List Nat)
    (hb : ∀ b ∈ allBits, b ≤ 1) :
    ∀ (fs : List (Nat × Frame)) (cur : Nat),
      (∀ p ∈ fs, (p.2).data.length = p.2.h * p.2.w * 3) →
      allBits.length ≤ cur + (fs.map fun p => frame_capacity_bits p.2 none .rgb).sum →
      allBits.drop cur <+: streamBits (embedSubstSpec cv allBits fs cur)
  | [], cur, _, hcap => by
      have : allBits.drop cur = [] :=
        List.drop_eq_nil_of_le (by simpa using hcap)
      simp [this, embedSubstSpec]
  | (i, f) :: rest, cur, hwf, hcap => by
      have hwfrest : ∀ p ∈ rest, (p.2).data.length = p.2.h * p.2.w * 3 :=
        fun p hp => hwf p (List.mem_cons_of_mem _ hp)
      by_cases hdone : allBits.length ≤ cur
      · have : allBits.drop cur = [] := List.drop_eq_nil_of_le hdone
        simp [this]
      · rw [embedSubstSpec, if_neg hdone]
        have hdata : f.data.length = f.h * f.w * 3 :=
          hwf (i, f) (List.mem_cons_self _ _)
        simp only [List.map_cons, List.sum_cons] at hcap
        rw [embed_in_frame_rgb_whole]
        dsimp only
        have hcapf : frame_capacity_bits f none ChannelMode.rgb = f.data.length := by
          rw [hdata]; rfl
        set cap := frame_capacity_bits f none ChannelMode.rgb with hcapdef
        set bitsFor := (allBits.drop cur).take cap with hbf
        have hbf_le_cap : bitsFor.length ≤ cap := by
          rw [hbf, List.length_take]
          exact Nat.min_le_left _ _
        have hbf_le_data : bitsFor.length ≤ f.data.length := by
          rw [← hcapf]; exact hbf_le_cap
        have hused : min bitsFor.length f.data.length = bitsFor.length :=
          Nat.min_eq_left hbf_le_data
        have hbf_bits : ∀ b ∈ bitsFor, b ≤ 1 := fun b hbb =>
          hb b (List.mem_of_mem_drop (List.mem_of_mem_take hbb))
        have hhead : ((embedFlat 0 bitsFor f.data).map (· % 256)).map (get_bit 0) =
            bitsFor ++ (f.data.drop bitsFor.length).map (fun v => get_bit 0 (v % 256)) := by
          rw [List.map_map]
          exact map_get_embedFlat bitsFor f.data hbf_bits hbf_le_data
        rw [streamBits_cons]
        dsimp only
        rw [hhead, hused]
        by_cases hrem : cur + cap ≤ allBits.length
        · have hbl : bitsFor.length = cap := by
            rw [hbf, List.length_take, List.length_drop]
            omega
          have hjunk : f.data.drop bitsFor.length = [] := by
            rw [hbl, hcapf, List.drop_length]
          rw [hjunk]
          simp only [List.map_nil, List.nil_append, List.append_nil, hbl]
          have hdecomp : allBits.drop cur = bitsFor ++ allBits.drop (cur + cap) := by
            conv_lhs => rw [← List.take_append_drop cap (allBits.drop cur)]
            rw [List.drop_drop, ← hbf]
          rw [hdecomp]
          exact prefix_append_left bitsFor
            (embedSubstSpec_stream_covers cv allBits hb rest (cur + cap) hwfrest
              (by omega))
        · have hbitsFor_all : bitsFor = allBits.drop cur := by
            rw [hbf]
            exact List.take_of_length_le (by rw [List.length_drop]; omega)
          rw [← hbitsFor_all, List.append_assoc]
          exact List.prefix_append _ _

theorem prefix_take_eq {l₁ l₂ : List Nat} (h : l₁ <+: l₂) (n : Nat)
    (hn : n ≤ l₁.length) : l₂.take n = l₁.take n := by
  obtain ⟨t, rfl⟩ := h
  exact List.take_append_of_le_length hn

/-- Once the buffered bits extend the framed payload, slicing out the
declared payload bits and decoding recovers the original payload. -/
theorem finishExtract_ok (ecc : EccCodec) (payload acc : List Nat)
    (hbytes : ∀ b ∈ ecc.encode payload, b < 256)
    (hdec : ecc.decode (ecc.encode payload) = .ok payload)
    (hpre : framedBits ecc payload <+: acc) :
    finishExtract ecc acc (ecc.encode payload).length = .ok payload := by
  obtain ⟨t, ht⟩ := hpre
  have hdrop : acc.drop 32 = data_to_bits (ecc.encode payload) ++ t := by
    rw [← ht, List.drop_append_of_le_length (by simp), framedBits_drop_32]
  have htake : (acc.drop 32).take ((ecc.encode payload).length * 8) =
      data_to_bits (ecc.encode payload) := by
    rw [hdrop]
    exact take_len_append _ _ _ (by simp [data_to_bits_length])
  rw [finishExtract, htake, bytes_bits_roundtrip _ hbytes, hdec]

/-- Main extraction invariant: as long as the total readable stream has
the framed payload as a prefix and the loop state is consistent (no
header yet ⇒ fewer than 32 bits buffered; header parsed ⇒ it names the
protected length and we are still short of the needed bits), the loop
finishes with the original payload. -/
theorem extractGo_ok (cv : CvColor) (ecc : EccCodec) (payload T : List Nat)
    (hbytes : ∀ b ∈ ecc.encode payload, b < 256)
    (hpos : 0 < (ecc.encode payload).length)
    (hbound : (ecc.encode payload).length ≤ 100 * 1024 * 1024)
    (hdec : ecc.decode (ecc.encode payload) = .ok payload)
    (hT : framedBits ecc payload <+: T) :
    ∀ (fs : List (Nat × Frame)) (acc : List Nat) (dl : Option Nat),
      acc ++ streamBits fs = T →
      (dl = none → acc.length < 32) →
      (∀ d, dl = some d → d = (ecc.encode payload).length ∧
        acc.length < 32 + d * 8) →
      extractGo cv ecc none 0 .rgb fs acc dl = .ok payload
  | [], acc, dl, hstream, hnone, hsome => by
      have hacc : acc = T := by simpa using hstream
      have hlenT : (framedBits ecc payload).length ≤ T.length := hT.length_le
      rw [framedBits_length] at hlenT
      have hlacc : acc.length = T.length := by rw [hacc]
      cases dl with
      | none =>
          have h1 := hnone rfl
          omega
      | some d =>
          obtain ⟨hd, hlt⟩ := hsome d rfl
          omega
  | (i, g) :: rest, acc, dl, hstream, hnone, hsome => by
      simp only [streamBits_cons] at hstream
      have hstream2 : (acc ++ g.data.map (get_bit 0)) ++ streamBits rest = T := by
        rw [List.append_assoc]
        exact hstream
      have hacc2T : acc ++ g.data.map (get_bit 0) <+: T :=
        ⟨streamBits rest, hstream2⟩
      have hABlen : (framedBits ecc payload).length =
          32 + (ecc.encode payload).length * 8 := framedBits_length ecc payload
      have h32AB : 32 ≤ (framedBits ecc payload).length := by omega
      have hL32 : (ecc.encode payload).length < 2 ^ 32 := by omega
      simp only [extractGo]
      dsimp only [extractNumBits, lookupRegions]
      rw [extract_from_frame_rgb_whole]
      have hparse : 32 ≤ (acc ++ g.data.map (get_bit 0)).length →
          fromBytesBE (bits_to_bytes ((acc ++ g.data.map (get_bit 0)).take 32)) =
            (ecc.encode payload).length := by
        intro h32
        have ht1 : T.take 32 = (acc ++ g.data.map (get_bit 0)).take 32 :=
          prefix_take_eq hacc2T 32 h32
        have ht2 : T.take 32 = (framedBits ecc payload).take 32 :=
          prefix_take_eq hT 32 h32AB
        rw [← ht1, ht2]
        exact framed_header_value ecc payload hL32
      have hfinish : 32 + (ecc.encode payload).length * 8 ≤
            (acc ++ g.data.map (get_bit 0)).length →
          finishExtract ecc (acc ++ g.data.map (get_bit 0))
            (ecc.encode payload).length = .ok payload := by
        intro hge
        refine finishExtract_ok ecc payload _ hbytes hdec ?_
        exact List.prefix_of_prefix_length_le hT hacc2T (by omega)
      cases dl with
      | none =>
          by_cases h32 : 32 ≤ (acc ++ g.data.map (get_bit 0)).length
          · rw [if_pos h32, hparse h32]
            rw [if_neg (by omega)]
            by_cases hbreak : 32 + (ecc.encode payload).length * 8 ≤
                (acc ++ g.data.map (get_bit 0)).length
            · rw [if_pos hbreak]
              exact hfinish hbreak
            · rw [if_neg hbreak]
              exact extractGo_ok cv ecc payload T hbytes hpos hbound hdec hT
                rest _ (some (ecc.encode payload).length) hstream2
                (by intro h; cases h)
                (by intro d hd; cases hd; exact ⟨rfl, by omega⟩)
          · rw [if_neg h32]
            exact extractGo_ok cv ecc payload T hbytes hpos hbound hdec hT
              rest _ none hstream2 (fun _ => by omega) (by intro d hd; cases hd)
      | some d =>
          obtain ⟨hd, hlt⟩ := hsome d rfl
          subst hd
          dsimp only
          by_cases hbreak : 32 + (ecc.encode payload).length * 8 ≤
              (acc ++ g.data.map (get_bit 0)).length
          · rw [if_pos hbreak]
            exact hfinish hbreak
          · rw [if_neg hbreak]
            exact extractGo_ok cv ecc payload T hbytes hpos hbound hdec hT
              rest _ (some (ecc.encode payload).length) hstream2
              (by intro h; cases h)
              (by intro d' hd'; cases hd'; exact ⟨rfl, by omega⟩)

/-- **C1.** Fixed deterministic plan (whole-frame scan, rgb channels,
`bit_position = 0`): for every ordered frame list with distinct indices
and well-formed shapes, and every payload whose Reed-Solomon protection
behaves as the `reedsolo` library does (decoding inverts encoding, output
is bytes, between 1 byte and the 100 MiB header bound), if the total bit
capacity of the frames covers the framed-and-protected payload then
`embed_message` succeeds, and `extract_message` run over the input frames
with the modified ones substituted at their indices returns exactly the
original payload bytes. -/
theorem embed_extract_roundtrip (cv : CvColor) (ecc : EccCodec)
    (frames : List (Nat × Frame)) (payload : List Nat)
    (hdec : ecc.decode (ecc.encode payload) = .ok payload)
    (hbytes : ∀ b ∈ ecc.encode payload, b < 256)
    (hpos : 0 < (ecc.encode payload).length)
    (hbound : (ecc.encode payload).length ≤ 100 * 1024 * 1024)
    (hwf : ∀ p ∈ frames, (p.2).data.length = p.2.h * p.2.w * 3)
    (hnodup : (frames.map Prod.fst).Nodup)
    (hcap : (framedBits ecc payload).length ≤
      (frames.map fun p => frame_capacity_bits p.2 none .rgb).sum) :
    ∃ r, embed_message cv ecc frames payload none 0 .rgb = .ok r ∧
      extract_message cv ecc (substitute frames r.modified) none 0 .rgb =
        .ok payload := by
  have hL32 : (ecc.encode payload).length < 2 ^ 32 :=
    lt_of_le_of_lt hbound (by norm_num)
  have hcap' : (framedBits ecc payload).length ≤
      (frames.map fun p =>
        frame_capacity_bits p.2 (lookupRegions none p.1) ChannelMode.rgb).sum := hcap
  refine ⟨_, by rw [embed_message, if_neg (by omega), if_neg (by omega)], ?_⟩
  · dsimp only
    rw [substitute_embedLoop cv (framedBits ecc payload) frames 0 hnodup]
    have hb : ∀ x ∈ framedBits ecc payload, x ≤ 1 :=
      data_to_bits_le_one (toBytesBE4 (ecc.encode payload).length ++ ecc.encode payload)
    have hT := embedSubstSpec_stream_covers cv (framedBits ecc payload) hb frames 0
      hwf (by omega)
    rw [List.drop_zero] at hT
    rw [extract_message]
    exact extractGo_ok cv ecc payload _ hbytes hpos hbound hdec hT
      (embedSubstSpec cv (framedBits ecc payload) frames 0) [] none
      (by simp) (fun _ => by simp) (by intro d hd; cases hd)

/-- Witness for C1: payload `[7]` (protected to 11 bytes, 120 framed
bits) embedded into one 5×8 rgb frame of capacity exactly 120 bits. -/
theorem embed_extract_roundtrip_witness :
    ∃ r, embed_message trivCv trivEcc [(0, Frame.mk 5 8 (List.replicate 120 3))]
        [7] none 0 .rgb = .ok r ∧
      extract_message trivCv trivEcc
        (substitute [(0, Frame.mk 5 8 (List.replicate 120 3))] r.modified)
        none 0 .rgb = .ok [7] :=
  embed_extract_roundtrip trivCv trivEcc [(0, Frame.mk 5 8 (List.replicate 120 3))]
    [7] (trivEcc_decode_encode [7]) (by decide) (by decide) (by decide)
    (by decide) (by decide) (by decide)

/-! ## AIService: RS-analysis subscore (claim C8)

Source: `AIService._rs_analysis` (`app/services/ai_service.py`,
lines 401–431).  The grayscale image is modelled by its flattened sample
list (`gray_image.flatten().astype(np.int32)`); samples are 8-bit, so
the int32 cast and the `^ 1` LSB flip stay in `Nat`.  `np.var` on four
8-bit samples is exact in float64, so variances are modelled in `ℚ`. -/

/-- `np.var`: population variance, mean of squared deviations. -/
def npVar (g : List Nat) : ℚ :=
  ((g.map (fun x => ((x : ℚ) - (g.map (fun x => (x : ℚ))).sum / g.length) ^ 2)).sum) /
    g.length

/-- `flipped = group ^ 1`: flip every sample's least significant bit. -/
def rsFlip (g : List Nat) : List Nat := g.map (fun x => x ^^^ 1)

/-- The groups the code's loop `for i in range(0, len(flat) - 4, 4)`
visits: consecutive 4-sample slices at offsets strictly below
`len - 4` — `⌈(len − 4) / 4⌉` of them. -/
def rsGroups (flat : List Nat) : List (List Nat) :=
  (List.range ((flat.length - 4 + 3) / 4)).map
    (fun k => (flat.drop (4 * k)).take 4)

/-- The groups the claim describes: *all* `len / 4` non-overlapping
complete groups of 4 consecutive samples. -/
def rsGroupsSpec (flat : List Nat) : List (List Nat) :=
  (List.range (flat.length / 4)).map (fun k => (flat.drop (4 * k)).take 4)

/-- `AIService._rs_analysis` over an already flattened grayscale image:
count groups whose variance strictly increases after the LSB flip
(regular) versus the rest (singular); return
`min(100, |regular − singular| / total * 200)`, or 50 with no groups. -/
def rs_analysis (flat : List Nat) : ℚ :=
  let groups := rsGroups flat
  let regular := (groups.filter (fun g => decide (npVar g < npVar (rsFlip g)))).length
  let singular := (groups.filter (fun g => !decide (npVar g < npVar (rsFlip g)))).length
  if regular + singular = 0 then 50
  else min 100 ((|(regular : ℚ) - (singular : ℚ)| / (regular + singular)) * 200)

/-- The claim's scoring formula over a given group list, following the
spec's words: regular when variance strictly increases after flipping
every sample's LSB, singular otherwise;
`min(100, 200·|regular−singular|/(regular+singular))`, 50 when there are
no groups. -/
def rsScore (groups : List (List Nat)) : ℚ :=
  let regular := (groups.filter (fun g => decide (npVar g < npVar (rsFlip g)))).length
  let singular := (groups.filter (fun g => !decide (npVar g < npVar (rsFlip g)))).length
  if regular + singular = 0 then 50
  else min 100 (200 * |(regular : ℚ) - (singular : ℚ)| / (regular + singular))

/-- Counterexample for C8: eight samples `[0,1,0,2,0,0,0,0]` form two
complete groups, but the code's loop stops strictly before offset
`len − 4 = 4` and only scores the first group (regular), returning 100;
scoring all groups as the claim states gives one regular and one
singular group, hence 0. -/
theorem rs_analysis_counterexample :
    rs_analysis [0, 1, 0, 2, 0, 0, 0, 0] = 100 ∧
    rsScore (rsGroupsSpec [0, 1, 0, 2, 0, 0, 0, 0]) = 0 ∧
    rs_analysis [0, 1, 0, 2, 0, 0, 0, 0] ≠
      rsScore (rsGroupsSpec [0, 1, 0, 2, 0, 0, 0, 0]) := by
  have hx0 : (0 ^^^ 1 : ℕ) = 1 := by decide
  have hx1 : (1 ^^^ 1 : ℕ) = 0 := by decide
  have hx2 : (2 ^^^ 1 : ℕ) = 3 := by decide
  have hg1 : npVar [0, 1, 0, 2] < npVar (rsFlip [0, 1, 0, 2]) := by
    norm_num [npVar, rsFlip, hx0, hx1, hx2]
  have hg2 : ¬ npVar [0, 0, 0, 0] < npVar (rsFlip [0, 0, 0, 0]) := by
    norm_num [npVar, rsFlip, hx0]
  have hgrp : rsGroups [0, 1, 0, 2, 0, 0, 0, 0] = [[0, 1, 0, 2]] := by decide
  have hspec : rsGroupsSpec [0, 1, 0, 2, 0, 0, 0, 0] =
      [[0, 1, 0, 2], [0, 0, 0, 0]] := by decide
  have e1 : rs_analysis [0, 1, 0, 2, 0, 0, 0, 0] = 100 := by
    rw [rs_analysis, hgrp]
    norm_num [List.filter_cons, hg1, min_def]
  have e2 : rsScore (rsGroupsSpec [0, 1, 0, 2, 0, 0, 0, 0]) = 0 := by
    rw [hspec, rsScore]
    norm_num [List.filter_cons, hg1, hg2, min_def]
  exact ⟨e1, e2, by rw [e1, e2]; norm_num⟩

theorem filter_not_length (p : List Nat → Bool) :
    ∀ l : List (List Nat),
      (l.filter p).length + (l.filter (fun g => !p g)).length = l.length
  | [] => rfl
  | g :: l => by
      have ih := filter_not_length p l
      rcases hp : p g
      · simp [List.filter_cons, hp]
        omega
      · simp [List.filter_cons, hp]
        omega

/-- **C8 (amended).** The RS-analysis subscore follows the claimed
classification and formula, but over the groups at offsets
`0, 4, …, < len − 4` rather than all complete groups: when the sample
count is a positive multiple of 4 the final complete group is omitted
(`len/4 − 1` groups, no groups at all when `len ≤ 4`); for any other
sample count the scored groups are exactly the complete groups of the
claim. -/
theorem rs_analysis_amended (flat : List Nat) :
    rs_analysis flat = rsScore (rsGroups flat) ∧
    (flat.length % 4 ≠ 0 → rsGroups flat = rsGroupsSpec flat) ∧
    (flat.length % 4 = 0 → 4 ≤ flat.length →
      (rsGroups flat).length = flat.length / 4 - 1 ∧
      rsGroups flat = (rsGroupsSpec flat).take (flat.length / 4 - 1)) ∧
    (flat.length ≤ 4 → rs_analysis flat = 50) := by
  refine ⟨?_, ?_, ?_, ?_⟩
  · simp only [rs_analysis, rsScore]
    by_cases h : ((rsGroups flat).filter
        (fun g => decide (npVar g < npVar (rsFlip g)))).length + ((rsGroups flat).filter
        (fun g => !decide (npVar g < npVar (rsFlip g)))).length = 0
    · rw [if_pos h, if_pos h]
    · rw [if_neg h, if_neg h]
      congr 1
      rw [mul_comm, mul_div_assoc]
  · intro hmod
    rw [rsGroups, rsGroupsSpec]
    congr 2
    omega
  · intro hmod h4
    have hc : (flat.length - 4 + 3) / 4 = flat.length / 4 - 1 := by omega
    constructor
    · simp [rsGroups, hc]
    · rw [rsGroups, rsGroupsSpec, hc, ← List.map_take, List.take_range,
        Nat.min_eq_left (by omega)]
  · intro h4
    have hc : (flat.length - 4 + 3) / 4 = 0 := by omega
    rw [rs_analysis]
    simp [rsGroups, hc]

/-- Witness for C8's amended theorem at a 5-sample image (not a multiple
of 4, so the code's groups coincide with all complete groups). -/
theorem rs_analysis_amended_witness :
    rs_analysis [9, 9, 9, 9, 9] = rsScore (rsGroups [9, 9, 9, 9, 9]) ∧
    rsGroups [9, 9, 9, 9, 9] = rsGroupsSpec [9, 9, 9, 9, 9] :=
  ⟨(rs_analysis_amended [9, 9, 9, 9, 9]).1,
   (rs_analysis_amended [9, 9, 9, 9, 9]).2.1 (by decide)⟩

/-! ## AIService: frame selection (claim C9)

Source: `AIService.select_best_frames` (`app/services/ai_service.py`,
lines 115–153).  Video decoding and the per-frame score
(`analyze_frame_for_embedding(...)['average_score']`, a chain of OpenCV
operations) are external, so the video is modelled by its frame count
and an abstract score function; every read is modelled as succeeding. -/

/-- `sample_interval = max(1, total_frames // 100)`. -/
def sampleInterval (total : Nat) : Nat := max 1 (total / 100)

/-- `range(0, total_frames, sample_interval)`: the candidate frame
positions, uniformly spaced. -/
def candidateIndices (total : Nat) : List Nat :=
  (List.range ((total + sampleInterval total - 1) / sampleInterval total)).map
    (fun k => k * sampleInterval total)

/-- Python's stable `sort(key=score, reverse=True)` over candidates with
strictly increasing frame indices orders pairs by descending score with
ties broken by ascending index (= original sample order); this relation
is the resulting total order. -/
def scoreRel (a b : Nat × ℚ) : Prop :=
  b.2 < a.2 ∨ (a.2 = b.2 ∧ a.1 ≤ b.1)

instance : DecidableRel scoreRel := fun a b => by
  unfold scoreRel
  infer_instance

instance : IsTotal (Nat × ℚ) scoreRel where
  total a b := by
    unfold scoreRel
    rcases lt_trichotomy a.2 b.2 with h | h | h
    · exact Or.inr (Or.inl h)
    · rcases Nat.le_total a.1 b.1 with h1 | h1
      · exact Or.inl (Or.inr ⟨h, h1⟩)
      · exact Or.inr (Or.inr ⟨h.symm, h1⟩)
    · exact Or.inl (Or.inl h)

instance : IsTrans (Nat × ℚ) scoreRel where
  trans a b c hab hbc := by
    unfold scoreRel at *
    rcases hab with h1 | ⟨h1, h1'⟩ <;> rcases hbc with h2 | ⟨h2, h2'⟩
    · exact Or.inl (h2.trans h1)
    · exact Or.inl (h2 ▸ h1)
    · exact Or.inl (h1 ▸ h2)
    · exact Or.inr ⟨h1.trans h2, h1'.trans h2'⟩

/-- `AIService.select_best_frames`: sample candidates, score each, sort
descending by score (stably), return the first `num_frames` indices. -/
def select_best_frames (total : Nat) (score : Nat → ℚ) (num_frames : Nat) :
    List Nat :=
  ((((candidateIndices total).map (fun i => (i, score i))).insertionSort
      scoreRel).take num_frames).map Prod.fst

@[simp] theorem candidateIndices_length (total : Nat) :
    (candidateIndices total).length =
      (total + sampleInterval total - 1) / sampleInterval total := by
  simp [candidateIndices]

/-- Counterexample for C9: a 150-frame video yields
`max(1, 150//100) = 1` as the sampling interval, hence 150 candidate
positions — more than the claimed maximum of 100. -/
theorem select_best_frames_counterexample :
    (candidateIndices 150).length = 150 ∧
    ¬((candidateIndices 150).length ≤ 100) := by
  refine ⟨by decide, by decide⟩

/-- **C9 (amended).** Frame selection samples
`⌈total / max(1, total/100)⌉` uniformly spaced candidates — that is
`total` of them below 100 frames but anywhere between 100 and 199 once
`total ≥ 100`, so the documented bound of 100 can be exceeded; it scores
each candidate, sorts by descending score with ties broken by ascending
frame index (the original sample order), and returns the first
`min(requested, sampled)` indices, every returned candidate scoring at
least as high as every rejected one. -/
theorem select_best_frames_amended (total num : Nat) (score : Nat → ℚ) :
    ((total ≤ 100 → (candidateIndices total).length = total) ∧
     (100 ≤ total → 100 ≤ (candidateIndices total).length ∧
        (candidateIndices total).length ≤ 199)) ∧
    (select_best_frames total score num).length =
      min num (candidateIndices total).length ∧
    List.Sorted scoreRel (((candidateIndices total).map
      (fun i => (i, score i))).insertionSort scoreRel) ∧
    (∀ a ∈ (((candidateIndices total).map
        (fun i => (i, score i))).insertionSort scoreRel).take num,
     ∀ b ∈ (((candidateIndices total).map
        (fun i => (i, score i))).insertionSort scoreRel).drop num,
      scoreRel a b) := by
  have hq1 : 1 ≤ sampleInterval total := le_max_left _ _
  refine ⟨⟨?_, ?_⟩, ?_, ?_, ?_⟩
  · intro h100
    have hq : sampleInterval total = 1 := by
      rw [sampleInterval]
      omega
    rw [candidateIndices_length, hq]
    omega
  · intro h100
    have hq : sampleInterval total = total / 100 := by
      rw [sampleInterval]
      omega
    set q := sampleInterval total with hqdef
    have hq0 : 0 < q := hq1
    have hdm := Nat.div_add_mod total 100
    have hm : total % 100 < 100 := Nat.mod_lt _ (by norm_num)
    constructor
    · rw [candidateIndices_length, ← hqdef, Nat.le_div_iff_mul_le hq0]
      omega
    · rw [candidateIndices_length, ← hqdef]
      have : (total + q - 1) / q < 200 := by
        rw [Nat.div_lt_iff_lt_mul hq0]
        omega
      omega
  · rw [select_best_frames, List.length_map, List.length_take,
      List.length_insertionSort, List.length_map]
  · exact List.sorted_insertionSort scoreRel _
  · intro a ha b hb
    exact (List.sorted_insertionSort scoreRel _).rel_of_mem_take_of_mem_drop ha hb

/-- Witness for C9's amended theorem: 150 frames give between 100 and
199 candidates (in fact 150), and requesting 2 frames returns 2. -/
theorem select_best_frames_amended_witness :
    (100 ≤ (candidateIndices 150).length ∧ (candidateIndices 150).length ≤ 199) ∧
    (select_best_frames 150 (fun i => (i : ℚ)) 2).length =
      min 2 (candidateIndices 150).length :=
  ⟨(select_best_frames_amended 150 2 (fun i => (i : ℚ))).1.2 (by decide),
   (select_best_frames_amended 150 2 (fun i => (i : ℚ))).2.1⟩

/-! ## Heap model of `embed_in_frame` (claim C10)

The no-mutation claim is about Python object identity, so the numpy
operations of `embed_in_frame` are replayed over an explicit heap of
arrays: `frame.copy()`, `flatten()`, `cvtColor` and `astype` allocate
fresh cells; element assignments (`work_frame[y,x,c] = …`,
`flat[i] = …`, `plane[y,x] = …`) write in place into the cell they
alias (`plane` and `reshape` results are numpy *views*, so they share
their base array's cell); `ycrcb[:,:,0] = plane` writes into the
`ycrcb` cell. -/

/-- A heap of numpy arrays: cell contents plus an allocation counter
(live arrays have ids below `next`). -/
structure Heap where
  mem : Nat → List Nat
  next : Nat

/-- In-place overwrite of one array cell. -/
def Heap.write (σ : Heap) (a : Nat) (d : List Nat) : Heap :=
  { σ with mem := fun j => if j = a then d else σ.mem j }

/-- Allocation of a fresh array holding `d`. -/
def Heap.alloc (σ : Heap) (d : List Nat) : Nat × Heap :=
  (σ.next,
   { mem := fun j => if j = σ.next then d else σ.mem j, next := σ.next + 1 })

@[simp] theorem Heap.alloc_fst (σ : Heap) (d : List Nat) :
    (σ.alloc d).1 = σ.next := rfl

@[simp] theorem Heap.alloc_next (σ : Heap) (d : List Nat) :
    ((σ.alloc d).2).next = σ.next + 1 := rfl

theorem Heap.alloc_mem_ne (σ : Heap) (d : List Nat) (j : Nat)
    (h : j ≠ σ.next) : ((σ.alloc d).2).mem j = σ.mem j := by
  simp [Heap.alloc, h]

@[simp] theorem Heap.write_next (σ : Heap) (a : Nat) (d : List Nat) :
    (σ.write a d).next = σ.next := rfl

theorem Heap.write_mem_ne (σ : Heap) (a : Nat) (d : List Nat) (j : Nat)
    (h : j ≠ a) : (σ.write a d).mem j = σ.mem j := by
  simp [Heap.write, h]

/-- The element-assignment loops of `embed_in_frame` on the heap: walk
the sample-index trail, writing one embedded bit per visited index into
cell `a`, until the bits (or indices) run out. -/
def writeLoopSt (bp a : Nat) : List Nat → List Nat → Heap → Heap
  | [], _, σ => σ
  | _ :: _, [], σ => σ
  | i :: is, b :: bs, σ =>
      writeLoopSt bp a is bs
        (σ.write a ((σ.mem a).set i (set_bit bp ((σ.mem a).getD i 0) b)))

theorem writeLoopSt_next (bp a : Nat) : ∀ (is bs : List Nat) (σ : Heap),
    (writeLoopSt bp a is bs σ).next = σ.next
  | [], _, _ => rfl
  | _ :: _, [], _ => rfl
  | _ :: is, _ :: bs, σ => by
      rw [writeLoopSt, writeLoopSt_next bp a is bs, Heap.write_next]

theorem writeLoopSt_mem_ne (bp a : Nat) : ∀ (is bs : List Nat) (σ : Heap)
    (j : Nat), j ≠ a → (writeLoopSt bp a is bs σ).mem j = σ.mem j
  | [], _, _, _, _ => rfl
  | _ :: _, [], _, _, _ => rfl
  | _ :: is, _ :: bs, σ, j, h => by
      rw [writeLoopSt, writeLoopSt_mem_ne bp a is bs _ j h,
        Heap.write_mem_ne _ _ _ _ h]

/-- `SteganographyService.embed_in_frame` replayed on the heap: takes
the input frame's array id (and shape), returns the id of the array the
function returns.  Every numpy step of the source appears: the initial
`frame.copy()`, the per-path flatten/convert allocations, the in-place
bit writes, and the final `astype(np.uint8)` copy. -/
def embed_in_frame_st (cv : CvColor) (h w : Nat) (fid : Nat)
    (bits : List Nat) (bp : Nat) (regions : Option (List Region))
    (mode : ChannelMode) (σ : Heap) : Nat × Heap :=
  -- work_frame = frame.copy()
  let wa := σ.alloc (σ.mem fid)
  match mode with
  | .rgb =>
      if hasRegions regions then
        -- region loop writes into the work copy, channel by channel
        let σ2 := writeLoopSt bp wa.1 (regionSampleIndicesRgb h w (regions.getD []))
          bits wa.2
        -- return work_frame.astype(np.uint8)
        σ2.alloc ((σ2.mem wa.1).map (· % 256))
      else
        -- flat = work_frame.flatten() (a fresh copy)
        let fa := wa.2.alloc (wa.2.mem wa.1)
        let σ2 := writeLoopSt bp fa.1 (List.range (fa.2.mem fa.1).length) bits fa.2
        -- work_frame = flat.reshape(...) is a view of flat; astype copies it
        σ2.alloc ((σ2.mem fa.1).map (· % 256))
  | .luma =>
      -- ycrcb = cv2.cvtColor(work_frame, BGR2YCrCb)
      let ya := wa.2.alloc (cv.bgr2ycrcb (wa.2.mem wa.1))
      if hasRegions regions then
        -- plane = ycrcb[:, :, 0] is a view: plane[y, x] writes hit ycrcb
        let σ2 := writeLoopSt bp ya.1 (regionSampleIndicesLuma h w (regions.getD []))
          bits ya.2
        -- ycrcb[:, :, 0] = plane (the view written back onto itself)
        let σ3 := σ2.write ya.1 (σ2.mem ya.1)
        -- work_frame = cv2.cvtColor(ycrcb, YCrCb2BGR)
        let va := σ3.alloc (cv.ycrcb2bgr (σ3.mem ya.1))
        va.2.alloc ((va.2.mem va.1).map (· % 256))
      else
        -- flat = plane.flatten() (a fresh copy of the Y plane)
        let fa := ya.2.alloc (planeOf (ya.2.mem ya.1))
        let σ2 := writeLoopSt bp fa.1 (List.range (fa.2.mem fa.1).length) bits fa.2
        -- plane = flat.reshape(...) views flat; ycrcb[:, :, 0] = plane
        let σ3 := σ2.write ya.1 (setPlane (σ2.mem ya.1) (σ2.mem fa.1))
        let va := σ3.alloc (cv.ycrcb2bgr (σ3.mem ya.1))
        va.2.alloc ((va.2.mem va.1).map (· % 256))

/-- All heap cells below `n` still hold what they held in `σ`. -/
def Preserves (n : Nat) (σ σ' : Heap) : Prop :=
  n ≤ σ'.next ∧ ∀ j, j < n → σ'.mem j = σ.mem j

theorem preserves_refl (n : Nat) (σ : Heap) (h : n ≤ σ.next) :
    Preserves n σ σ := ⟨h, fun _ _ => rfl⟩

theorem preserves_alloc {n : Nat} {σ σ' : Heap} (h : Preserves n σ σ')
    (d : List Nat) : Preserves n σ (σ'.alloc d).2 := by
  refine ⟨by rw [Heap.alloc_next]; have := h.1; omega, fun j hj => ?_⟩
  have hne : j ≠ σ'.next := by
    have := h.1
    omega
  rw [Heap.alloc_mem_ne _ _ j hne]
  exact h.2 j hj

theorem preserves_write {n : Nat} {σ σ' : Heap} (h : Preserves n σ σ')
    (a : Nat) (d : List Nat) (ha : n ≤ a) : Preserves n σ (σ'.write a d) := by
  refine ⟨by rw [Heap.write_next]; exact h.1, fun j hj => ?_⟩
  rw [Heap.write_mem_ne _ _ _ j (by omega)]
  exact h.2 j hj

theorem preserves_writeLoop {n : Nat} {σ σ' : Heap} (h : Preserves n σ σ')
    (bp a : Nat) (is bs : List Nat) (ha : n ≤ a) :
    Preserves n σ (writeLoopSt bp a is bs σ') := by
  refine ⟨by rw [writeLoopSt_next]; exact h.1, fun j hj => ?_⟩
  rw [writeLoopSt_mem_ne bp a is bs σ' j (by omega)]
  exact h.2 j hj

/-- **C10.** `embed_in_frame` never mutates the caller's frame array:
for every live input array, every bit list, bit position, region list
and channel mode, the input cell (indeed every pre-existing cell) holds
the same contents after the call, and the returned array is freshly
allocated — in particular distinct from the input array. -/
theorem embed_in_frame_no_mutation (cv : CvColor) (h w : Nat) (fid : Nat)
    (bits : List Nat) (bp : Nat) (regions : Option (List Region))
    (mode : ChannelMode) (σ : Heap) (hfid : fid < σ.next) :
    ((embed_in_frame_st cv h w fid bits bp regions mode σ).2).mem fid =
      σ.mem fid ∧
    (embed_in_frame_st cv h w fid bits bp regions mode σ).1 ≠ fid ∧
    σ.next ≤ (embed_in_frame_st cv h w fid bits bp regions mode σ).1 ∧
    (∀ j, j < σ.next →
      ((embed_in_frame_st cv h w fid bits bp regions mode σ).2).mem j =
        σ.mem j) := by
  suffices key : Preserves σ.next σ (embed_in_frame_st cv h w fid bits bp regions mode σ).2 ∧
      σ.next ≤ (embed_in_frame_st cv h w fid bits bp regions mode σ).1 by
    obtain ⟨⟨hn, hmem⟩, hid⟩ := key
    exact ⟨hmem fid hfid, by omega, hid, hmem⟩
  cases mode with
  | rgb =>
      by_cases hr : hasRegions regions
      · simp only [embed_in_frame_st]
        rw [if_pos hr]
        constructor
        · apply preserves_alloc
          apply preserves_writeLoop
          · exact preserves_alloc (preserves_refl _ _ le_rfl) _
          · simp only [Heap.alloc_fst, Heap.alloc_next]
            omega
        · rw [Heap.alloc_fst, writeLoopSt_next, Heap.alloc_next]
          omega
      · simp only [embed_in_frame_st]
        rw [if_neg hr]
        constructor
        · apply preserves_alloc
          apply preserves_writeLoop
          · exact preserves_alloc (preserves_alloc (preserves_refl _ _ le_rfl) _) _
          · simp only [Heap.alloc_fst, Heap.alloc_next]
            omega
        · rw [Heap.alloc_fst, writeLoopSt_next, Heap.alloc_next, Heap.alloc_next]
          omega
  | luma =>
      by_cases hr : hasRegions regions
      · simp only [embed_in_frame_st]
        rw [if_pos hr]
        constructor
        · apply preserves_alloc
          apply preserves_alloc
          apply preserves_write
          · apply preserves_writeLoop
            · exact preserves_alloc (preserves_alloc (preserves_refl _ _ le_rfl) _) _
            · simp only [Heap.alloc_fst, Heap.alloc_next]
              omega
          · simp only [Heap.alloc_fst, Heap.alloc_next, writeLoopSt_next]
            omega
        · rw [Heap.alloc_fst, Heap.alloc_next, Heap.write_next, writeLoopSt_next,
            Heap.alloc_next, Heap.alloc_next]
          omega
      · simp only [embed_in_frame_st]
        rw [if_neg hr]
        constructor
        · apply preserves_alloc
          apply preserves_alloc
          apply preserves_write
          · apply preserves_writeLoop
            · exact preserves_alloc (preserves_alloc (preserves_alloc
                (preserves_refl _ _ le_rfl) _) _) _
            · simp only [Heap.alloc_fst, Heap.alloc_next]
              omega
          · simp only [Heap.alloc_fst, Heap.alloc_next, writeLoopSt_next]
            omega
        · rw [Heap.alloc_fst, Heap.alloc_next, Heap.write_next, writeLoopSt_next,
            Heap.alloc_next, Heap.alloc_next, Heap.alloc_next]
          omega

/-- Witness for C10: one live 3-sample array at id 0 in a heap with
`next = 1`, two bits embedded in rgb whole-frame mode. -/
theorem embed_in_frame_no_mutation_witness :
    ((embed_in_frame_st trivCv 1 1 0 [1, 0] 0 none .rgb
        ⟨fun _ => [5, 6, 7], 1⟩).2).mem 0 = (fun _ => [5, 6, 7] : Nat → List Nat) 0 ∧
    (embed_in_frame_st trivCv 1 1 0 [1, 0] 0 none .rgb
        ⟨fun _ => [5, 6, 7], 1⟩).1 ≠ 0 ∧
    1 ≤ (embed_in_frame_st trivCv 1 1 0 [1, 0] 0 none .rgb
        ⟨fun _ => [5, 6, 7], 1⟩).1 ∧
    (∀ j, j < 1 →
      ((embed_in_frame_st trivCv 1 1 0 [1, 0] 0 none .rgb
          ⟨fun _ => [5, 6, 7], 1⟩).2).mem j = (fun _ => [5, 6, 7] : Nat → List Nat) j) :=
  embed_in_frame_no_mutation trivCv 1 1 0 [1, 0] 0 none .rgb
    ⟨fun _ => [5, 6, 7], 1⟩ (by decide)

end VideoStego
